import Mathlib

/-!
Verification development for the graphql-mcp server (src/unnamed/part_003).

The server's query-safety engine (sanitizeQuery, calculateQueryComplexity,
calculateQueryDepth, validateQueryConstraints), its schema-to-tool synthesis
(createMCPToolsFromSchema, getLeafType, getGraphQLTypeString,
getBasicSelectionSet), and its stateful orchestration (handleConfigureGraphQL,
handleGraphQLResolver, handleGetStatus, the tool-call dispatcher) are embedded
below as executable Lean functions over explicit state, with network calls and
the system clock passed in as oracle arguments.  Characters are modelled at
the ASCII level (the JavaScript regexes' `\w` class is ASCII-only; `\s` is
modelled by the common ASCII whitespace characters).
-/

deriving instance DecidableEq for Except

namespace GraphqlMcp

/-- The opening brace character, written by code point. -/
def lbrace : Char := Char.ofNat 123

/-- The closing brace character, written by code point. -/
def rbrace : Char := Char.ofNat 125

/-- Membership in the JavaScript regex class `\w` = [A-Za-z0-9_]. -/
def isWordChar (c : Char) : Bool :=
  c.isAlpha || c.isDigit || c = '_'

/-- Membership in the regex class `\s`, modelled by the ASCII whitespace
characters (space, tab, newline, carriage return, vertical tab, form feed). -/
def isJsSpace (c : Char) : Bool :=
  c = ' ' || c = '\t' || c = '\n' || c = '\r' || c = Char.ofNat 11 || c = Char.ofNat 12

/-- Does `l` start with `needle`?  Building block for the substring search
used by JavaScript `String.prototype.includes`. -/
def beginsWith : List Char → List Char → Bool
  | [], _ => true
  | _ :: _, [] => false
  | a :: as, b :: bs => a = b && beginsWith as bs

/-- Does `needle` occur as a contiguous substring of `l`?  This is the model
of JavaScript `String.prototype.includes` (restricted to the characters the
file models).  The empty needle occurs in every string, as in JavaScript. -/
def hasSub (needle : List Char) : List Char → Bool
  | [] => beginsWith needle []
  | b :: bs => beginsWith needle (b :: bs) || hasSub needle bs

/-- JavaScript `String.prototype.toLowerCase`, modelled on ASCII letters. -/
def jsToLower (s : String) : String := ⟨s.data.map Char.toLower⟩

/-- JavaScript `String.prototype.includes` on whole strings. -/
def jsIncludes (hay needle : String) : Bool := hasSub needle.data hay.data

/-- Suffix of the input after the first occurrence of the two characters
`*/`, if any: the non-greedy search for the closing delimiter in the regex
`/\/\*[\s\S]*?\*\//` of `sanitizeQuery`. -/
def findCloseAux : List Char → Option (List Char)
  | [] => none
  | [_] => none
  | c :: d :: rest =>
    if c = '*' && d = '/' then some rest else findCloseAux (d :: rest)

theorem findCloseAux_length : ∀ (l r : List Char), findCloseAux l = some r →
    r.length < l.length := by
  intro l
  induction l with
  | nil => intro r h; simp [findCloseAux] at h
  | cons c t ih =>
    intro r h
    cases t with
    | nil => simp [findCloseAux] at h
    | cons d rest =>
      by_cases hc : c = '*' && d = '/'
      · simp [findCloseAux, hc] at h
        subst h; simp; omega
      · simp [findCloseAux, hc] at h
        have := ih r h
        simpa using Nat.lt_succ_of_lt this

/-- Fuel-indexed worker for block-comment removal.  Each step consumes at
least one character of the list, so fuel `l.length` always suffices; the
fuel-0 branch is never reached from `removeBlockComments`. -/
def removeBlockF : Nat → List Char → List Char
  | 0, l => l
  | _ + 1, [] => []
  | _ + 1, [c] => [c]
  | fuel + 1, c :: d :: rest =>
    if c = '/' && d = '*' then
      match findCloseAux rest with
      | some rest2 => removeBlockF fuel rest2
      | none => c :: d :: removeBlockF fuel rest
    else c :: removeBlockF fuel (d :: rest)

/-- Block-comment removal, `query.replace(/\/\*[\s\S]*?\*\//g, '')` of
`sanitizeQuery`: remove each non-greedy block comment, scanning left to
right; an unterminated opener is kept verbatim (the regex does not match
it). -/
def removeBlockComments (l : List Char) : List Char := removeBlockF l.length l

/-- Line-comment removal, `query.replace(/#[^\r\n]*/g, '')` of
`sanitizeQuery`, as a two-mode scanner: mode `true` is inside a line comment,
dropping characters up to (but not including) the next carriage return or
newline. -/
def removeLineAux : Bool → List Char → List Char
  | _, [] => []
  | false, c :: rest =>
    if c = '#' then removeLineAux true rest else c :: removeLineAux false rest
  | true, c :: rest =>
    if c = '\r' || c = '\n' then c :: removeLineAux false rest
    else removeLineAux true rest

/-- Line-comment removal, starting outside any comment. -/
def removeLineComments (l : List Char) : List Char := removeLineAux false l

/-- Whitespace collapsing, `query.replace(/\s+/g, ' ')` of `sanitizeQuery`,
as a two-mode scanner: mode `true` means the previous character was
whitespace already replaced by a single space, so further whitespace of the
same run is dropped. -/
def collapseWsAux : Bool → List Char → List Char
  | _, [] => []
  | inRun, c :: rest =>
    if isJsSpace c then
      if inRun then collapseWsAux true rest else ' ' :: collapseWsAux true rest
    else c :: collapseWsAux false rest

/-- Whitespace-run collapsing, starting outside any run. -/
def collapseWs (l : List Char) : List Char := collapseWsAux false l

/-- Drop the leading whitespace run: half of `String.prototype.trim`. -/
def trimLeftWs (l : List Char) : List Char := l.dropWhile isJsSpace

/-- Drop the trailing whitespace run: the other half of `trim`. -/
def trimRightWs : List Char → List Char
  | [] => []
  | c :: rest =>
    match trimRightWs rest with
    | [] => if isJsSpace c then [] else [c]
    | r => c :: r

/-- JavaScript `String.prototype.trim`. -/
def trimChars (l : List Char) : List Char := trimLeftWs (trimRightWs l)

/-- Embedding of `sanitizeQuery` (src/unnamed/part_003 lines 441-447): strip
block comments, strip line comments, collapse whitespace runs to single
spaces, trim. -/
def sanitizeQuery (query : String) : String :=
  ⟨trimChars (collapseWs (removeLineComments (removeBlockComments query.data)))⟩

/-- Membership in the regex character class `[{(]`. -/
def isOpenChar (c : Char) : Bool := c = lbrace || c = '('

/-- Worker for `calculateQueryComplexity`.  The source counts the global
matches of the regex `/\w+(?=\s*[{(])/`: one match per maximal `\w+` run
whose next non-whitespace character is an opening brace or parenthesis
(a shorter prefix of a word can never match, since the character after it is
a word character, and after a match the scan resumes at the end of the
word).  Equivalently, scanning left to right, an opening brace or
parenthesis adds one exactly when the last non-whitespace character before
it was a word character; `prev` carries that bit. -/
def complexityAux : Bool → List Char → Nat
  | _, [] => 0
  | prev, c :: rest =>
    if isOpenChar c then
      (if prev then 1 else 0) + complexityAux false rest
    else if isJsSpace c then complexityAux prev rest
    else complexityAux (isWordChar c) rest

/-- Embedding of `calculateQueryComplexity` (src/unnamed/part_003 lines
403-408): the number of matches of `/\w+(?=\s*[{(])/g` in the input. -/
def calculateQueryComplexity (query : String) : Nat :=
  complexityAux false query.data

/-- Tokens of the specification-level reading of the complexity rule: a
maximal word, or a single non-word non-whitespace symbol; whitespace
separates tokens and is dropped. -/
inductive Tok where
  | word (w : List Char)
  | sym (c : Char)
deriving DecidableEq

/-- Tokenizer for the specification-level complexity count.  The accumulator
holds the reversed characters of the word being read, if any. -/
def tokenizeAux : Option (List Char) → List Char → List Tok
  | some w, [] => [Tok.word w.reverse]
  | none, [] => []
  | acc, c :: rest =>
    if isWordChar c then tokenizeAux (some (c :: acc.getD [])) rest
    else
      (match acc with
        | some w => [Tok.word w.reverse]
        | none => []) ++
      (if isJsSpace c then tokenizeAux none rest
       else Tok.sym c :: tokenizeAux none rest)

/-- Is this token an opening brace or parenthesis symbol? -/
def isOpenSym : Tok → Bool
  | Tok.sym c => isOpenChar c
  | _ => false

/-- Count of word tokens whose next token is an opening brace or
parenthesis. -/
def countWordsBeforeOpen : List Tok → Nat
  | [] => 0
  | [_] => 0
  | t1 :: t2 :: rest =>
    (match t1 with
      | Tok.word _ => if isOpenSym t2 then 1 else 0
      | _ => 0) + countWordsBeforeOpen (t2 :: rest)

/-- Specification-level complexity: the number of word tokens followed (up
to whitespace) by an opening brace or parenthesis. -/
def wordTokensBeforeOpen (s : String) : Nat :=
  countWordsBeforeOpen (tokenizeAux none s.data)

/-- Worker of `calculateQueryDepth`: `d` is the current brace counter (a
JavaScript number, so it may go negative), `m` the running maximum, updated
only when an opening brace is read. -/
def depthGo : Int → Int → List Char → Int
  | _, m, [] => m
  | d, m, c :: rest =>
    if c = lbrace then depthGo (d + 1) (max m (d + 1)) rest
    else if c = rbrace then depthGo (d - 1) m rest
    else depthGo d m rest

/-- Embedding of `calculateQueryDepth` (src/unnamed/part_003 lines 417-432):
running maximum of a counter incremented on each opening brace and
decremented on each closing brace. -/
def calculateQueryDepth (query : String) : Int :=
  depthGo 0 0 query.data

/-- Net brace balance of a character list: openers minus closers. -/
def netOpen (l : List Char) : Int :=
  (l.count lbrace : Int) - (l.count rbrace : Int)

/-- Specification-level depth: the largest net brace balance over all
prefixes of the text, at least zero. -/
def specQueryDepth (l : List Char) : Int :=
  (l.inits.map netOpen).foldl max 0

/-- Error values thrown as `McpError` by the server, identified by which
`throw` site produced them (the original carries an ErrorCode and a message
string; the constructor arguments record the data interpolated into the
message). -/
inductive McpError where
  | invalidArguments
  | missingEndpoint
  | connectFailed
  | complexityExceeded (score maxAllowed : Nat)
  | depthExceeded (score : Int) (maxAllowed : Nat)
  | disabledResolver (name : String)
  | notConfigured
  | unknownTool (available : List String)
deriving DecidableEq

/-- The merged configuration object stored in `state.config` (the shape of
`ConfigureArgsSchema` output after merging with environment defaults). -/
structure MergedConfig where
  endpoint : Option String
  headers : List (String × String)
  timeout : Nat
  maxDepth : Nat
  maxComplexity : Nat
  disabledResolvers : List String
deriving DecidableEq

/-- Embedding of `validateQueryConstraints` (src/unnamed/part_003 lines
457-487): sanitize, then reject on complexity, then depth, then the first
disabled resolver whose lowercased name occurs in the lowercased sanitized
text. -/
def validateQueryConstraints (query : String) (config : MergedConfig) :
    Except McpError Unit :=
  let sanitized := sanitizeQuery query
  let complexity := calculateQueryComplexity sanitized
  if complexity > config.maxComplexity then
    Except.error (McpError.complexityExceeded complexity config.maxComplexity)
  else
    let depth := calculateQueryDepth sanitized
    if depth > (config.maxDepth : Int) then
      Except.error (McpError.depthExceeded depth config.maxDepth)
    else
      match config.disabledResolvers.find?
          (fun r => jsIncludes (jsToLower sanitized) (jsToLower r)) with
      | some r => Except.error (McpError.disabledResolver r)
      | none => Except.ok ()

/-- Discriminator: did validation reject on the complexity limit? -/
def isComplexityError : Except McpError Unit → Bool
  | Except.error (McpError.complexityExceeded _ _) => true
  | _ => false

/-- Discriminator: did validation reject on the depth limit? -/
def isDepthError : Except McpError Unit → Bool
  | Except.error (McpError.depthExceeded _ _) => true
  | _ => false

/-- Discriminator: did validation reject on a disabled resolver? -/
def isDisabledResolverError : Except McpError Unit → Bool
  | Except.error (McpError.disabledResolver _) => true
  | _ => false

/-- GraphQL type references as they appear in an introspection result,
with the structural invariant that LIST and NON_NULL always carry `ofType`
and leaf kinds always carry a name. -/
inductive TypeRef where
  | scalar (name : String)
  | enumT (name : String) (enumValues : List String)
  | objectT (name : String)
  | interfaceT (name : String)
  | unionT (name : String)
  | inputObjectT (name : String)
  | listT (ofType : TypeRef)
  | nonNull (ofType : TypeRef)
deriving DecidableEq

/-- Embedding of `getLeafType` (lines 362-367): strip NON_NULL and LIST
wrappers recursively. -/
def getLeafType : TypeRef → TypeRef
  | TypeRef.nonNull t => getLeafType t
  | TypeRef.listT t => getLeafType t
  | t => t

/-- Name of a type reference (`type.name`); LIST and NON_NULL have no name
in introspection data, and the code only reads `.name` off leaves, so the
wrapper cases delegate to the leaf. -/
def leafName : TypeRef → String
  | TypeRef.scalar n => n
  | TypeRef.enumT n _ => n
  | TypeRef.objectT n => n
  | TypeRef.interfaceT n => n
  | TypeRef.unionT n => n
  | TypeRef.inputObjectT n => n
  | TypeRef.listT t => leafName t
  | TypeRef.nonNull t => leafName t

/-- Is the type reference a NON_NULL wrapper (`type.kind === 'NON_NULL'`)? -/
def isNonNull : TypeRef → Bool
  | TypeRef.nonNull _ => true
  | _ => false

/-- Is the leaf an ENUM (`fieldType.kind === 'ENUM'`)? -/
def isEnumT : TypeRef → Bool
  | TypeRef.enumT _ _ => true
  | _ => false

/-- Embedding of `getGraphQLTypeString` (lines 373-383). -/
def getGraphQLTypeString : TypeRef → String
  | TypeRef.nonNull t => getGraphQLTypeString t ++ "!"
  | TypeRef.listT t => "[" ++ getGraphQLTypeString t ++ "]"
  | t => leafName t

/-- JSON-schema fragments produced by `convertGraphQLTypeToJsonSchema`;
`withDescription` records the later `properties[arg.name].description`
assignment. -/
inductive JsonSchemaT where
  | jString
  | jInteger
  | jNumber
  | jBoolean
  | jArray (items : JsonSchemaT)
  | jEnumOf (vals : List String)
  | jObjectRef (description : String)
  | withDescription (base : JsonSchemaT) (description : String)
deriving DecidableEq

/-- Embedding of `convertGraphQLTypeToJsonSchema` (lines 177-212). -/
def convertGraphQLTypeToJsonSchema : TypeRef → JsonSchemaT
  | TypeRef.nonNull t => convertGraphQLTypeToJsonSchema t
  | TypeRef.listT t => JsonSchemaT.jArray (convertGraphQLTypeToJsonSchema t)
  | TypeRef.scalar n =>
    if n = "String" then JsonSchemaT.jString
    else if n = "Int" then JsonSchemaT.jInteger
    else if n = "Float" then JsonSchemaT.jNumber
    else if n = "Boolean" then JsonSchemaT.jBoolean
    else if n = "ID" then JsonSchemaT.jString
    else JsonSchemaT.jString
  | TypeRef.enumT _ vs => JsonSchemaT.jEnumOf vs
  | TypeRef.objectT n => JsonSchemaT.jObjectRef (n ++ " object")
  | TypeRef.interfaceT n => JsonSchemaT.jObjectRef (n ++ " object")
  | TypeRef.unionT n => JsonSchemaT.jObjectRef (n ++ " object")
  | TypeRef.inputObjectT n => JsonSchemaT.jObjectRef (n ++ " object")

/-- One argument of a schema field. -/
structure GqlArg where
  name : String
  description : Option String
  type : TypeRef
deriving DecidableEq

/-- One field of a schema type. -/
structure GqlField where
  name : String
  description : Option String
  args : List GqlArg
  type : TypeRef
deriving DecidableEq

/-- One named type of the introspection result's type list. -/
structure GqlType where
  name : String
  fields : Option (List GqlField)
deriving DecidableEq

/-- Name reference to a root type (`__schema.queryType` and
`__schema.mutationType`). -/
structure RootRef where
  name : String
deriving DecidableEq

/-- The `__schema` part of an introspection result. -/
structure GqlSchema where
  queryType : Option RootRef
  mutationType : Option RootRef
  types : List GqlType
deriving DecidableEq

/-- The `resolver` record stored inside each dynamic tool; `type` is the
string `"query"` or `"mutation"` exactly as in the source. -/
structure ResolverInfo where
  type : String
  fieldName : String
  returnType : String
  args : List GqlArg
deriving DecidableEq

/-- The `inputSchema` object built for a dynamic tool: `properties` in
argument order, and the `required` list of NON_NULL argument names. -/
structure ToolInputSchema where
  properties : List (String × JsonSchemaT)
  required : List String
deriving DecidableEq

/-- One entry of `state.dynamicTools`. -/
structure DynTool where
  name : String
  description : String
  inputSchema : ToolInputSchema
  resolver : ResolverInfo
deriving DecidableEq

/-- Attach `arg.description` to a property schema when present and truthy
(the source guards with `if (arg.description)`, so an empty string is not
attached). -/
def withArgDescription (base : JsonSchemaT) : Option String → JsonSchemaT
  | some d => if d = "" then base else JsonSchemaT.withDescription base d
  | none => base

/-- Build one dynamic tool from one root field, for operation kind `op`
(`"query"` or `"mutation"`): the body of the per-field loop of
`createMCPToolsFromSchema` (lines 229-265 and 274-310). -/
def mkResolverTool (op : String) (field : GqlField) : DynTool :=
  { name := op ++ "_" ++ field.name,
    description :=
      match field.description with
      | some d =>
        if d = "" then
          "Execute GraphQL " ++ op ++ ": " ++ field.name
        else d
      | none => "Execute GraphQL " ++ op ++ ": " ++ field.name,
    inputSchema :=
      { properties := field.args.map (fun a =>
          (a.name, withArgDescription (convertGraphQLTypeToJsonSchema a.type)
            a.description)),
        required := (field.args.filter (fun a => isNonNull a.type)).map
          (fun a => a.name) },
    resolver :=
      { type := op,
        fieldName := field.name,
        returnType := leafName (getLeafType field.type),
        args := field.args } }

/-- Fields of a root type, resolved the way `createMCPToolsFromSchema` does:
follow the root reference into the type list by name (`types.find`), then
read `.fields`; absence at any step yields no fields. -/
def rootFields (schema : GqlSchema) : Option RootRef → List GqlField
  | none => []
  | some r =>
    match schema.types.find? (fun t => t.name = r.name) with
    | none => []
    | some t => t.fields.getD []

/-- Does the configured disabled-resolver list contain this field name?
The source reads `state.config?.disabledResolvers.includes(field.name)`,
which is falsy when no configuration is stored. -/
def disabledContains (config : Option MergedConfig) (n : String) : Bool :=
  match config with
  | some c => c.disabledResolvers.contains n
  | none => false

/-- Embedding of `createMCPToolsFromSchema` (lines 221-316): one tool per
Query root field then one per Mutation root field, skipping fields whose
name is in the configured disabled-resolver list; `config` stands for the
`state.config` read inside the loop. -/
def createMCPToolsFromSchema (config : Option MergedConfig)
    (schema : GqlSchema) : List DynTool :=
  ((rootFields schema schema.queryType).filter
      (fun f => !(disabledContains config f.name))).map (mkResolverTool "query")
  ++ ((rootFields schema schema.mutationType).filter
      (fun f => !(disabledContains config f.name))).map (mkResolverTool "mutation")

/-- JavaScript `Array.prototype.join` with a separator. -/
def joinSep (sep : String) : List String → String
  | [] => ""
  | [x] => x
  | x :: xs => x ++ sep ++ joinSep sep xs

/-- The built-in scalar type names of `getBasicSelectionSet`. -/
def scalarTypeNames : List String := ["String", "Int", "Float", "Boolean", "ID"]

/-- Embedding of `getBasicSelectionSet` (lines 325-357): no selection set
for scalars; otherwise up to five scalar- or enum-leafed field names of the
return type from the cached schema; otherwise the fixed fallback list. -/
def getBasicSelectionSet (cachedSchema : Option GqlSchema)
    (returnType : String) : String :=
  if scalarTypeNames.contains returnType || returnType = "Mixed" then ""
  else
    let fromSchema : Option (List String) :=
      match cachedSchema with
      | none => none
      | some schema =>
        match schema.types.find? (fun t => t.name = returnType) with
        | none => none
        | some t =>
          match t.fields with
          | none => none
          | some fs =>
            let scalarFields := ((fs.filter (fun f =>
                scalarTypeNames.contains (leafName (getLeafType f.type))
                || isEnumT (getLeafType f.type))).take 5).map (fun f => f.name)
            if scalarFields.length > 0 then some scalarFields else none
    match fromSchema with
    | some names => " \x7b " ++ joinSep " " names ++ " \x7d"
    | none => " \x7b " ++ joinSep " " ["id", "name", "code", "title"] ++ " \x7d"

/-- Opaque model of a JSON value passed as a tool argument; the server never
inspects these values, it only forwards them. -/
inductive JsonVal where
  | jNull
  | jBool (b : Bool)
  | jNum (n : Int)
  | jStr (s : String)
deriving DecidableEq

/-- One `$key: Type` variable declaration of `handleGraphQLResolver` (lines
698-707): the declared argument's GraphQL type signature, or the fallback
`String` when the supplied key matches no declared argument. -/
def varDeclPair (resolverArgs : List GqlArg) (key : String) : String :=
  match resolverArgs.find? (fun a => a.name = key) with
  | some a => "$" ++ key ++ ": " ++ getGraphQLTypeString a.type
  | none => "$" ++ key ++ ": String"

/-- The `varPairs` list built by `handleGraphQLResolver`, one entry per
supplied argument. -/
def buildVarPairs (resolverArgs : List GqlArg)
    (args : List (String × JsonVal)) : List String :=
  args.map (fun kv => varDeclPair resolverArgs kv.1)

/-- The `argPairs` list (`key: $key` per supplied argument). -/
def buildArgPairs (args : List (String × JsonVal)) : List String :=
  args.map (fun kv => kv.1 ++ ": $" ++ kv.1)

/-- The `variables` record: every supplied entry is copied through
unchanged (`variables[key] = value`). -/
def buildVariables (args : List (String × JsonVal)) :
    List (String × JsonVal) := args

/-- The GraphQL document text `handleGraphQLResolver` builds (lines
685-720): operation keyword, variable declarations, field with argument
applications, and the basic selection set, in the source's template-literal
layout. -/
def buildResolverQuery (tool : DynTool) (args : List (String × JsonVal))
    (cachedSchema : Option GqlSchema) : String :=
  let operationType := if tool.resolver.type = "mutation" then "mutation" else "query"
  let argsString :=
    if args.isEmpty then ""
    else "(" ++ joinSep ", " (buildArgPairs args) ++ ")"
  let variablesString :=
    if args.isEmpty then ""
    else "(" ++ joinSep ", " (buildVarPairs tool.resolver.args args) ++ ")"
  let selectionSet := getBasicSelectionSet cachedSchema tool.resolver.returnType
  operationType ++ " " ++ variablesString ++ " \x7b\n    "
    ++ tool.resolver.fieldName ++ argsString ++ selectionSet ++ "\n  \x7d"

/-- The GraphQLClient instance held in `state.client`, identified by its
construction arguments. -/
structure ClientHandle where
  endpoint : String
  headers : List (String × String)
deriving DecidableEq

/-- The global `state` object (`ServerState`, lines 65-101). -/
structure ServerState where
  client : Option ClientHandle
  endpoint : Option String
  config : Option MergedConfig
  cachedSchema : Option GqlSchema
  schemaTimestamp : Nat
  dynamicTools : List DynTool
deriving DecidableEq

/-- The initial value of `state` (lines 94-101). -/
def initialState : ServerState :=
  { client := none, endpoint := none, config := none,
    cachedSchema := none, schemaTimestamp := 0, dynamicTools := [] }

/-- The result of `loadEnvironmentConfig()` (lines 115-168): a partial
configuration whose fields are present exactly when the corresponding
environment variables were set and parsed. -/
structure PartialConfig where
  endpoint : Option String := none
  headers : Option (List (String × String)) := none
  timeout : Option Nat := none
  maxDepth : Option Nat := none
  maxComplexity : Option Nat := none
  disabledResolvers : Option (List String) := none
deriving DecidableEq

/-- The arguments a caller supplies to `configure_graphql`, before zod
parsing: each field is present or absent. -/
structure ConfigureArgs where
  endpoint : Option String := none
  headers : Option (List (String × String)) := none
  timeout : Option Nat := none
  maxDepth : Option Nat := none
  maxComplexity : Option Nat := none
  disabledResolvers : Option (List String) := none
deriving DecidableEq

/-- Output of `ConfigureArgsSchema.parse` on accepted input: zod fills the
declared defaults for absent `timeout`, `maxDepth`, `maxComplexity` and
`disabledResolvers`, and omits absent optional keys (`endpoint`,
`headers`). -/
structure ParsedConfig where
  endpoint : Option String
  headers : Option (List (String × String))
  timeout : Nat
  maxDepth : Nat
  maxComplexity : Nat
  disabledResolvers : List String
deriving DecidableEq

/-- Embedding of `ConfigureArgsSchema.parse` (lines 37-44) on input that
passes validation: defaults 30000, 10, 100, and the empty list. -/
def zodParseConfigureArgs (a : ConfigureArgs) : ParsedConfig :=
  { endpoint := a.endpoint,
    headers := a.headers,
    timeout := a.timeout.getD 30000,
    maxDepth := a.maxDepth.getD 10,
    maxComplexity := a.maxComplexity.getD 100,
    disabledResolvers := a.disabledResolvers.getD [] }

/-- JavaScript object spread `{...base, ...extra}` on string-keyed header
maps: keys of `base` in order with values overridden by `extra` where both
have the key, then the keys only `extra` has. -/
def mergeHeaderMaps (base extra : List (String × String)) :
    List (String × String) :=
  base.map (fun kv =>
    match extra.find? (fun kv2 => kv2.1 = kv.1) with
    | some kv2 => (kv.1, kv2.2)
    | none => kv)
  ++ extra.filter (fun kv2 => !(base.any (fun kv => kv.1 = kv2.1)))

/-- The merge `{...envConfig, ...parsedArgs, headers: {...envConfig.headers,
...parsedArgs.headers}}` of `handleConfigureGraphQL` (lines 586-594).  The
zod output always carries `timeout`, `maxDepth`, `maxComplexity` and
`disabledResolvers` (defaults applied), so those spread keys always
override the environment values; only `endpoint` falls back, and the header
maps merge key by key. -/
def mergeConfig (env : PartialConfig) (parsed : ParsedConfig) : MergedConfig :=
  { endpoint :=
      match parsed.endpoint with
      | some e => some e
      | none => env.endpoint,
    headers := mergeHeaderMaps (env.headers.getD []) (parsed.headers.getD []),
    timeout := parsed.timeout,
    maxDepth := parsed.maxDepth,
    maxComplexity := parsed.maxComplexity,
    disabledResolvers := parsed.disabledResolvers }

/-- The success text returned by `handleConfigureGraphQL` (line 654). -/
def configureSuccessText (config : MergedConfig) (toolCount : Nat) : String :=
  "✅ Successfully configured GraphQL endpoint: " ++ config.endpoint.getD ""
  ++ "\n\nSettings:\n- Max depth: " ++ toString config.maxDepth
  ++ "\n- Max complexity: " ++ toString config.maxComplexity
  ++ "\n- Disabled resolvers: "
  ++ (if config.disabledResolvers.length > 0
      then joinSep ", " config.disabledResolvers else "None")
  ++ "\n- Timeout: " ++ toString config.timeout
  ++ "ms\n- Dynamic tools created: " ++ toString toolCount

/-- Embedding of `handleConfigureGraphQL` (lines 580-658).  External
effects are oracle arguments: `args` is `none` when
`ConfigureArgsSchema.parse` throws, `probeOk` is the outcome of the
`'{ __typename }'` connectivity probe, `introspection` the outcome of the
introspection request (`none` = it threw, which is caught and non-fatal),
and `now` is `Date.now()`.  The returned state is the global `state` after
the call: every `throw` happens before any assignment to `state`, so error
outcomes return the input state unchanged. -/
def handleConfigureGraphQL (st : ServerState) (env : PartialConfig)
    (args : Option ConfigureArgs) (probeOk : Bool)
    (introspection : Option GqlSchema) (now : Nat) :
    ServerState × Except McpError String :=
  match args with
  | none => (st, Except.error McpError.invalidArguments)
  | some a =>
    let config := mergeConfig env (zodParseConfigureArgs a)
    match config.endpoint with
    | none => (st, Except.error McpError.missingEndpoint)
    | some ep =>
      if !probeOk then (st, Except.error McpError.connectFailed)
      else
        let testClient : ClientHandle := { endpoint := ep, headers := config.headers }
        let st1 : ServerState :=
          { client := some testClient, endpoint := some ep, config := some config,
            cachedSchema := none, schemaTimestamp := 0, dynamicTools := [] }
        let st2 :=
          match introspection with
          | some schemaResult =>
            { st1 with
                cachedSchema := some schemaResult,
                schemaTimestamp := now,
                dynamicTools := createMCPToolsFromSchema (some config) schemaResult }
          | none => st1
        (st2, Except.ok (configureSuccessText config st2.dynamicTools.length))

/-- The content block a tool handler returns: its text and the `isError`
flag. -/
structure ToolResponse where
  text : String
  isError : Bool
deriving DecidableEq

/-- Embedding of `handleGraphQLResolver` (lines 668-761).  `netResult` is
the oracle for `state.client.request(query, variables)`: `Except.ok payload`
carries the response rendered by `JSON.stringify(result, null, 2)`,
`Except.error msg` the thrown error's message.  Validation failures are
re-thrown `McpError`s; execution failures return a normal response with
`isError := true`. -/
def handleGraphQLResolver (st : ServerState) (tool : DynTool)
    (args : List (String × JsonVal)) (netResult : Except String String) :
    Except McpError ToolResponse :=
  match st.client, st.config with
  | some _, some config =>
    let query := buildResolverQuery tool args st.cachedSchema
    match validateQueryConstraints query config with
    | Except.error e => Except.error e
    | Except.ok _ =>
      match netResult with
      | Except.ok payload =>
        Except.ok
          { text := "✅ "
              ++ (if tool.resolver.type = "mutation" then "Mutation" else "Query")
              ++ " executed: " ++ tool.resolver.fieldName
              ++ "\n\nEndpoint: " ++ st.endpoint.getD "null"
              ++ "\n\nResult:\n" ++ payload,
            isError := false }
      | Except.error msg =>
        Except.ok
          { text := "❌ "
              ++ (if tool.resolver.type = "mutation" then "Mutation" else "Query")
              ++ " failed: " ++ tool.resolver.fieldName
              ++ "\n\nError: " ++ msg
              ++ "\n\nQuery:\n" ++ query,
            isError := true }
  | _, _ => Except.error McpError.notConfigured

/-- The `settings` object of the status report (lines 773-779). -/
structure StatusSettings where
  maxDepth : Nat
  maxComplexity : Nat
  disabledResolvers : List String
  timeout : Nat
  headersConfigured : Bool
deriving DecidableEq

/-- The status object of `handleGetStatus` (lines 769-785). -/
structure StatusReport where
  configured : Bool
  endpoint : Option String
  settings : Option StatusSettings
  schemaCache : Bool
  cacheAge : Option Nat
deriving DecidableEq

/-- Embedding of `handleGetStatus`: `configured` is `!!state.client`. -/
def handleGetStatus (st : ServerState) (now : Nat) : StatusReport :=
  { configured := st.client.isSome,
    endpoint := st.endpoint,
    settings := st.config.map (fun c =>
      { maxDepth := c.maxDepth, maxComplexity := c.maxComplexity,
        disabledResolvers := c.disabledResolvers, timeout := c.timeout,
        headersConfigured := c.headers.length > 0 }),
    schemaCache := st.cachedSchema.isSome,
    cacheAge := if st.cachedSchema.isSome then some (now - st.schemaTimestamp) else none }

/-- What the `CallToolRequestSchema` handler decides to run for a tool
name. -/
inductive DispatchOutcome where
  | runGetStatus
  | runDynamicTool (tool : DynTool)
  | unknownTool (available : List String)
deriving DecidableEq

/-- Embedding of the `CallToolRequestSchema` handler's routing (lines
538-571): the static switch knows only `get_status`; otherwise the dynamic
tool of that exact name; otherwise the `Unknown tool` MethodNotFound error
enumerating the known names. -/
def dispatchToolCall (st : ServerState) (name : String) : DispatchOutcome :=
  if name = "get_status" then DispatchOutcome.runGetStatus
  else
    match st.dynamicTools.find? (fun t => t.name = name) with
    | some t => DispatchOutcome.runDynamicTool t
    | none =>
      DispatchOutcome.unknownTool
        ("get_status" :: st.dynamicTools.map (fun t => t.name))

/-! Substring toolkit: facts about `beginsWith` and `hasSub` used both to
evaluate the server's `includes`-based checks and to reason about the texts
the server assembles. -/

theorem beginsWith_self_append (n t : List Char) :
    beginsWith n (n ++ t) = true := by
  induction n with
  | nil => rfl
  | cons a as ih => simp [beginsWith, ih]

theorem beginsWith_self (n : List Char) : beginsWith n n = true := by
  have := beginsWith_self_append n []
  simpa using this

theorem hasSub_of_beginsWith (n l : List Char) (h : beginsWith n l = true) :
    hasSub n l = true := by
  cases l with
  | nil => simpa [hasSub] using h
  | cons b bs => simp [hasSub, h]

theorem hasSub_append_left (n a t : List Char) (h : hasSub n t = true) :
    hasSub n (a ++ t) = true := by
  induction a with
  | nil => simpa using h
  | cons c cs ih => simp [hasSub, ih]

theorem beginsWith_extend (n x b : List Char) (h : beginsWith n x = true) :
    beginsWith n (x ++ b) = true := by
  induction n generalizing x with
  | nil => rfl
  | cons a as ih =>
    cases x with
    | nil => simp [beginsWith] at h
    | cons y ys =>
      simp [beginsWith] at h
      simp [beginsWith, h.1, ih ys h.2]

theorem hasSub_append_right (n t b : List Char) (h : hasSub n t = true) :
    hasSub n (t ++ b) = true := by
  induction t with
  | nil =>
    cases n with
    | nil => cases b with
      | nil => simpa using h
      | cons x xs => simp [hasSub, beginsWith]
    | cons m ms => simp [hasSub, beginsWith] at h
  | cons c cs ih =>
    simp only [hasSub, Bool.or_eq_true] at h
    rcases h with h | h
    · exact hasSub_of_beginsWith _ _ (by simpa using beginsWith_extend n (c :: cs) b h)
    · simp [hasSub, ih h]

theorem hasSub_cons_false (n : List Char) (c : Char) (l : List Char)
    (h : hasSub n (c :: l) = false) : hasSub n l = false := by
  by_contra hne
  have : hasSub n l = true := by
    cases hq : hasSub n l
    · exact absurd hq hne
    · rfl
  simp [hasSub, this] at h

theorem hasSub_middle (n a b : List Char) :
    hasSub n (a ++ (n ++ b)) = true :=
  hasSub_append_left n a (n ++ b)
    (hasSub_of_beginsWith n (n ++ b) (beginsWith_self_append n b))

theorem hasSub_joinSep (x : String) (sep : String) (l : List String)
    (h : x ∈ l) : hasSub x.data (joinSep sep l).data = true := by
  induction l with
  | nil => cases h
  | cons y ys ih =>
    cases h with
    | head =>
      cases ys with
      | nil => exact hasSub_of_beginsWith _ _ (beginsWith_self x.data)
      | cons z zs =>
        show hasSub x.data (x ++ sep ++ joinSep sep (z :: zs)).data = true
        have : (x ++ sep ++ joinSep sep (z :: zs)).data
            = x.data ++ (sep.data ++ (joinSep sep (z :: zs)).data) := by
          simp [String.data_append]
        rw [this]
        exact hasSub_append_right _ _ _
          (hasSub_of_beginsWith _ _ (beginsWith_self x.data))
    | tail _ hmem =>
      cases ys with
      | nil => cases hmem
      | cons z zs =>
        show hasSub x.data (y ++ sep ++ joinSep sep (z :: zs)).data = true
        have : (y ++ sep ++ joinSep sep (z :: zs)).data
            = (y.data ++ sep.data) ++ (joinSep sep (z :: zs)).data := by
          simp [String.data_append]
        rw [this]
        exact hasSub_append_left _ _ _ (ih hmem)

/-! Counting helper for the catalog-size statement. -/

theorem length_filter_not_add_countP {α : Type} (l : List α) (p : α → Bool) :
    (l.filter (fun x => !(p x))).length + l.countP p = l.length := by
  induction l with
  | nil => simp
  | cons x xs ih =>
    by_cases hx : p x
    · simp [List.filter_cons, List.countP_cons, hx]
      omega
    · simp [List.filter_cons, List.countP_cons, hx]
      omega

/-! Shape of validation outcomes: each rejection discriminator holds exactly
on its own branch of `validateQueryConstraints`. -/

theorem isComplexityError_validate (q : String) (cfg : MergedConfig) :
    isComplexityError (validateQueryConstraints q cfg) = true ↔
      calculateQueryComplexity (sanitizeQuery q) > cfg.maxComplexity := by
  unfold validateQueryConstraints
  by_cases h1 : calculateQueryComplexity (sanitizeQuery q) > cfg.maxComplexity
  · simp [h1, isComplexityError]
  · simp only [h1, if_false]
    by_cases h2 : calculateQueryDepth (sanitizeQuery q) > (cfg.maxDepth : Int)
    · simp [h2, isComplexityError, h1]
    · simp only [h2, if_false]
      cases hf : cfg.disabledResolvers.find?
          (fun r => jsIncludes (jsToLower (sanitizeQuery q)) (jsToLower r)) with
      | none => simp [isComplexityError, h1]
      | some r => simp [isComplexityError, h1]

theorem isDepthError_validate (q : String) (cfg : MergedConfig)
    (hc : calculateQueryComplexity (sanitizeQuery q) ≤ cfg.maxComplexity) :
    isDepthError (validateQueryConstraints q cfg) = true ↔
      calculateQueryDepth (sanitizeQuery q) > (cfg.maxDepth : Int) := by
  unfold validateQueryConstraints
  have h1 : ¬ calculateQueryComplexity (sanitizeQuery q) > cfg.maxComplexity := by omega
  simp only [h1, if_false]
  by_cases h2 : calculateQueryDepth (sanitizeQuery q) > (cfg.maxDepth : Int)
  · simp [h2, isDepthError]
  · simp only [h2, if_false]
    cases hf : cfg.disabledResolvers.find?
        (fun r => jsIncludes (jsToLower (sanitizeQuery q)) (jsToLower r)) with
    | none => simp [isDepthError, h2]
    | some r => simp [isDepthError, h2]

theorem isDisabledResolverError_validate (q : String) (cfg : MergedConfig)
    (hc : calculateQueryComplexity (sanitizeQuery q) ≤ cfg.maxComplexity)
    (hd : calculateQueryDepth (sanitizeQuery q) ≤ (cfg.maxDepth : Int)) :
    isDisabledResolverError (validateQueryConstraints q cfg) = true ↔
      ∃ r ∈ cfg.disabledResolvers,
        hasSub (jsToLower r).data (jsToLower (sanitizeQuery q)).data = true := by
  unfold validateQueryConstraints
  have h1 : ¬ calculateQueryComplexity (sanitizeQuery q) > cfg.maxComplexity := by omega
  have h2 : ¬ calculateQueryDepth (sanitizeQuery q) > (cfg.maxDepth : Int) := by omega
  simp only [h1, h2, if_false]
  cases hf : cfg.disabledResolvers.find?
      (fun r => jsIncludes (jsToLower (sanitizeQuery q)) (jsToLower r)) with
  | none =>
    simp only [isDisabledResolverError]
    constructor
    · intro h; cases h
    · rintro ⟨r, hr, hsub⟩
      have := List.find?_eq_none.mp hf r hr
      simp [jsIncludes] at this
      rw [hsub] at this
      cases this
  | some r =>
    simp only [isDisabledResolverError]
    constructor
    · intro _
      have hmem := List.find?_some hf
      have hmem2 := List.mem_of_find?_eq_some hf
      refine ⟨r, hmem2, ?_⟩
      simpa [jsIncludes] using hmem
    · intro _; trivial

/-! Depth: the brace-counting fold equals the prefix-maximum
specification. -/

theorem netOpen_nil : netOpen [] = 0 := by simp [netOpen]

theorem netOpen_cons_lbrace (p : List Char) :
    netOpen (lbrace :: p) = netOpen p + 1 := by
  have hne : lbrace ≠ rbrace := by decide
  simp [netOpen, List.count_cons_self, List.count_cons_of_ne (Ne.symm hne)]
  ring

theorem netOpen_cons_rbrace (p : List Char) :
    netOpen (rbrace :: p) = netOpen p - 1 := by
  have hne : rbrace ≠ lbrace := by decide
  simp [netOpen, List.count_cons_self, List.count_cons_of_ne (Ne.symm hne)]
  ring

theorem netOpen_cons_other (c : Char) (p : List Char)
    (h1 : c ≠ lbrace) (h2 : c ≠ rbrace) :
    netOpen (c :: p) = netOpen p := by
  simp [netOpen, List.count_cons_of_ne (Ne.symm h1), List.count_cons_of_ne (Ne.symm h2)]

theorem inits_head_nil {α : Type} (r : List α) :
    ∃ ps, r.inits = [] :: ps := by
  cases r with
  | nil => exact ⟨[], by simp⟩
  | cons a as => exact ⟨as.inits.map (fun t => a :: t), by simp [List.inits_cons]⟩

theorem depthGo_spec (l : List Char) : ∀ (d m : Int), d ≤ m →
    depthGo d m l = (l.inits.map (fun p => d + netOpen p)).foldl max m := by
  induction l with
  | nil =>
    intro d m hdm
    simp [depthGo, List.inits, netOpen_nil, max_eq_left hdm]
  | cons c r ih =>
    intro d m hdm
    rw [List.inits_cons, List.map_cons, List.foldl_cons, List.map_map]
    by_cases hc1 : c = lbrace
    · subst hc1
      have hfun : ((fun p => d + netOpen p) ∘ fun t => lbrace :: t)
          = (fun p => (d + 1) + netOpen p) := by
        funext p
        simp [Function.comp, netOpen_cons_lbrace]
        ring
      rw [hfun]
      have hstep : depthGo d m (lbrace :: r) = depthGo (d + 1) (max m (d + 1)) r := by
        simp [depthGo]
      rw [hstep, ih (d + 1) (max m (d + 1)) (le_max_right m (d + 1))]
      rcases inits_head_nil r with ⟨ps, hps⟩
      rw [hps, List.map_cons, List.foldl_cons, List.foldl_cons]
      have h1 : max (max m (d + netOpen [])) (d + 1 + netOpen []) = max m (d + 1) := by
        rw [netOpen_nil, add_zero, add_zero, max_assoc]
        congr 1
        exact max_eq_right (by omega)
      have h2 : max (max m (d + 1)) (d + 1 + netOpen []) = max m (d + 1) := by
        rw [netOpen_nil, add_zero, max_assoc, max_self]
      rw [h1, h2]
    · by_cases hc2 : c = rbrace
      · subst hc2
        have hfun : ((fun p => d + netOpen p) ∘ fun t => rbrace :: t)
            = (fun p => (d - 1) + netOpen p) := by
          funext p
          simp [Function.comp, netOpen_cons_rbrace]
          ring
        rw [hfun]
        have hbr : rbrace ≠ lbrace := by decide
        have hstep : depthGo d m (rbrace :: r) = depthGo (d - 1) m r := by
          simp [depthGo, hbr]
        rw [hstep, ih (d - 1) m (by omega)]
        rw [netOpen_nil, add_zero, max_eq_left hdm]
      · have hfun : ((fun p => d + netOpen p) ∘ fun t => c :: t)
            = (fun p => d + netOpen p) := by
          funext p
          simp [Function.comp, netOpen_cons_other c p hc1 hc2]
        rw [hfun]
        have hstep : depthGo d m (c :: r) = depthGo d m r := by
          simp [depthGo, hc1, hc2]
        rw [hstep, ih d m hdm]
        rw [netOpen_nil, add_zero, max_eq_left hdm]

theorem calculateQueryDepth_spec (s : String) :
    calculateQueryDepth s = specQueryDepth s.data := by
  unfold calculateQueryDepth specQueryDepth
  rw [depthGo_spec s.data 0 0 le_rfl]
  congr 1
  apply List.map_congr_left
  intro p _
  simp

/-! Complexity: the regex-count scanner agrees with the token-level
specification (count of word tokens followed, up to whitespace, by an
opening brace or parenthesis). -/

theorem wordChar_not_open (c : Char) (h : isWordChar c = true) :
    isOpenChar c = false := by
  cases hq : isOpenChar c
  · rfl
  · exfalso
    simp [isOpenChar] at hq
    rcases hq with h1 | h1 <;> subst h1 <;> exact absurd h (by decide)

theorem wordChar_not_space (c : Char) (h : isWordChar c = true) :
    isJsSpace c = false := by
  cases hq : isJsSpace c
  · rfl
  · exfalso
    simp [isJsSpace] at hq
    rcases hq with ((((h1 | h1) | h1) | h1) | h1) | h1 <;> subst h1 <;>
      exact absurd h (by decide)

theorem space_not_word (c : Char) (h : isJsSpace c = true) :
    isWordChar c = false := by
  cases hq : isWordChar c
  · rfl
  · exact absurd h (by rw [wordChar_not_space c hq]; simp)

theorem open_not_word (c : Char) (h : isOpenChar c = true) :
    isWordChar c = false := by
  cases hq : isWordChar c
  · rfl
  · exact absurd h (by rw [wordChar_not_open c hq]; simp)

theorem open_not_space (c : Char) (h : isOpenChar c = true) :
    isJsSpace c = false := by
  cases hq : isJsSpace c
  · rfl
  · exfalso
    simp [isJsSpace] at hq
    rcases hq with ((((h1 | h1) | h1) | h1) | h1) | h1 <;> subst h1 <;>
      exact absurd h (by decide)

/-- Bonus contributed by a word token depending on the token after it. -/
def headOpenBonus : List Tok → Nat
  | [] => 0
  | t :: _ => if isOpenSym t then 1 else 0

theorem countWordsBeforeOpen_word (w : List Char) (toks : List Tok) :
    countWordsBeforeOpen (Tok.word w :: toks)
      = headOpenBonus toks + countWordsBeforeOpen toks := by
  cases toks with
  | nil => simp [countWordsBeforeOpen, headOpenBonus]
  | cons t2 rest => simp [countWordsBeforeOpen, headOpenBonus]

theorem countWordsBeforeOpen_sym (c : Char) (toks : List Tok) :
    countWordsBeforeOpen (Tok.sym c :: toks) = countWordsBeforeOpen toks := by
  cases toks with
  | nil => simp [countWordsBeforeOpen]
  | cons t2 rest => simp [countWordsBeforeOpen]

theorem tokenizeAux_some_head (r : List Char) : ∀ (w : List Char),
    ∃ w2 T, tokenizeAux (some w) r = Tok.word w2 :: T := by
  induction r with
  | nil => intro w; exact ⟨w.reverse, [], rfl⟩
  | cons c rest ih =>
    intro w
    by_cases hw : isWordChar c
    · rcases ih (c :: w) with ⟨w2, T, hT⟩
      exact ⟨w2, T, by simp [tokenizeAux, hw]; exact hT⟩
    · by_cases hs : isJsSpace c
      · exact ⟨w.reverse, tokenizeAux none rest, by simp [tokenizeAux, hw, hs]⟩
      · exact ⟨w.reverse, Tok.sym c :: tokenizeAux none rest,
          by simp [tokenizeAux, hw, hs]⟩

theorem complexityAux_tokenize (l : List Char) :
    (complexityAux false l = countWordsBeforeOpen (tokenizeAux none l))
    ∧ (∀ w, complexityAux true l
        = countWordsBeforeOpen (Tok.word w :: tokenizeAux none l))
    ∧ (∀ w, complexityAux true l
        = countWordsBeforeOpen (tokenizeAux (some w) l)) := by
  induction l with
  | nil =>
    refine ⟨rfl, fun w => ?_, fun w => ?_⟩
    · simp [complexityAux, tokenizeAux, countWordsBeforeOpen]
    · simp [complexityAux, tokenizeAux, countWordsBeforeOpen]
  | cons c r ih =>
    rcases ih with ⟨ih1, ih2, ih3⟩
    by_cases hopen : isOpenChar c
    · have hw := open_not_word c hopen
      have hs := open_not_space c hopen
      refine ⟨?_, fun w => ?_, fun w => ?_⟩
      · rw [show complexityAux false (c :: r) = complexityAux false r by
            simp [complexityAux, hopen]]
        rw [show tokenizeAux none (c :: r) = Tok.sym c :: tokenizeAux none r by
            simp [tokenizeAux, hw, hs]]
        rw [countWordsBeforeOpen_sym, ih1]
      · rw [show complexityAux true (c :: r) = 1 + complexityAux false r by
            simp [complexityAux, hopen]]
        rw [show tokenizeAux none (c :: r) = Tok.sym c :: tokenizeAux none r by
            simp [tokenizeAux, hw, hs]]
        rw [countWordsBeforeOpen_word, countWordsBeforeOpen_sym, ih1]
        simp [headOpenBonus, isOpenSym, hopen]
      · rw [show complexityAux true (c :: r) = 1 + complexityAux false r by
            simp [complexityAux, hopen]]
        rw [show tokenizeAux (some w) (c :: r)
              = Tok.word w.reverse :: Tok.sym c :: tokenizeAux none r by
            simp [tokenizeAux, hw, hs]]
        rw [countWordsBeforeOpen_word, countWordsBeforeOpen_sym, ih1]
        simp [headOpenBonus, isOpenSym, hopen]
    · by_cases hs : isJsSpace c
      · have hw := space_not_word c hs
        refine ⟨?_, fun w => ?_, fun w => ?_⟩
        · rw [show complexityAux false (c :: r) = complexityAux false r by
              simp [complexityAux, hopen, hs]]
          rw [show tokenizeAux none (c :: r) = tokenizeAux none r by
              simp [tokenizeAux, hw, hs]]
          exact ih1
        · rw [show complexityAux true (c :: r) = complexityAux true r by
              simp [complexityAux, hopen, hs]]
          rw [show tokenizeAux none (c :: r) = tokenizeAux none r by
              simp [tokenizeAux, hw, hs]]
          exact ih2 w
        · rw [show complexityAux true (c :: r) = complexityAux true r by
              simp [complexityAux, hopen, hs]]
          rw [show tokenizeAux (some w) (c :: r)
                = Tok.word w.reverse :: tokenizeAux none r by
              simp [tokenizeAux, hw, hs]]
          exact ih2 w.reverse
      · by_cases hw : isWordChar c
        · refine ⟨?_, fun w => ?_, fun w => ?_⟩
          · rw [show complexityAux false (c :: r) = complexityAux true r by
                simp [complexityAux, hopen, hs, hw]]
            rw [show tokenizeAux none (c :: r) = tokenizeAux (some [c]) r by
                simp [tokenizeAux, hw]]
            exact ih3 [c]
          · rw [show complexityAux true (c :: r) = complexityAux true r by
                simp [complexityAux, hopen, hs, hw]]
            rw [show tokenizeAux none (c :: r) = tokenizeAux (some [c]) r by
                simp [tokenizeAux, hw]]
            rcases tokenizeAux_some_head r [c] with ⟨w2, T, hT⟩
            have h3 := ih3 [c]
            rw [hT, countWordsBeforeOpen_word] at h3
            rw [hT, countWordsBeforeOpen_word, countWordsBeforeOpen_word]
            simpa [headOpenBonus, isOpenSym] using h3
          · rw [show complexityAux true (c :: r) = complexityAux true r by
                simp [complexityAux, hopen, hs, hw]]
            rw [show tokenizeAux (some w) (c :: r) = tokenizeAux (some (c :: w)) r by
                simp [tokenizeAux, hw]]
            exact ih3 (c :: w)
        · refine ⟨?_, fun w => ?_, fun w => ?_⟩
          · rw [show complexityAux false (c :: r) = complexityAux false r by
                simp [complexityAux, hopen, hs, hw]]
            rw [show tokenizeAux none (c :: r) = Tok.sym c :: tokenizeAux none r by
                simp [tokenizeAux, hw, hs]]
            rw [countWordsBeforeOpen_sym, ih1]
          · rw [show complexityAux true (c :: r) = complexityAux false r by
                simp [complexityAux, hopen, hs, hw]]
            rw [show tokenizeAux none (c :: r) = Tok.sym c :: tokenizeAux none r by
                simp [tokenizeAux, hw, hs]]
            rw [countWordsBeforeOpen_word, countWordsBeforeOpen_sym, ih1]
            simp [headOpenBonus, isOpenSym, hopen]
          · rw [show complexityAux true (c :: r) = complexityAux false r by
                simp [complexityAux, hopen, hs, hw]]
            rw [show tokenizeAux (some w) (c :: r)
                  = Tok.word w.reverse :: Tok.sym c :: tokenizeAux none r by
                simp [tokenizeAux, hw, hs]]
            rw [countWordsBeforeOpen_word, countWordsBeforeOpen_sym, ih1]
            simp [headOpenBonus, isOpenSym, hopen]

theorem calculateQueryComplexity_spec (s : String) :
    calculateQueryComplexity s = wordTokensBeforeOpen s := by
  exact (complexityAux_tokenize s.data).1

/-! Sanitizer analysis.  Removing a block comment can splice a new block
comment together (see the counterexample for the idempotence claim), but on
text free of the opener `/*` the whole pipeline is a fixed point of itself:
the lemmas below track freeness of `/*` and `#`, the normal form of
collapsed whitespace, and trimming, through each stage. -/

theorem beginsWith_pair (a b : Char) (l : List Char)
    (h : beginsWith [a, b] l = true) : ∃ t, l = a :: b :: t := by
  cases l with
  | nil => simp [beginsWith] at h
  | cons c cs =>
    cases cs with
    | nil => simp [beginsWith] at h
    | cons d ds =>
      simp [beginsWith] at h
      exact ⟨ds, by rw [h.1, h.2]⟩

theorem hasSub_false_append_right (n t b : List Char)
    (h : hasSub n (t ++ b) = false) : hasSub n t = false := by
  cases hq : hasSub n t
  · rfl
  · rw [hasSub_append_right n t b hq] at h; cases h

theorem hasSub_false_append_left (n a t : List Char)
    (h : hasSub n (a ++ t) = false) : hasSub n t = false := by
  cases hq : hasSub n t
  · rfl
  · rw [hasSub_append_left n a t hq] at h; cases h

theorem removeBlockF_id (f : Nat) : ∀ (l : List Char),
    hasSub ['/', '*'] l = false → removeBlockF f l = l := by
  induction f with
  | zero => intro l _; rfl
  | succ f ih =>
    intro l h
    match l with
    | [] => rfl
    | [c] => rfl
    | c :: d :: rest =>
      by_cases hcd : c = '/' ∧ d = '*'
      · exfalso
        have : beginsWith ['/', '*'] (c :: d :: rest) = true := by
          simp [beginsWith, hcd.1, hcd.2]
        rw [hasSub_of_beginsWith _ _ this] at h
        cases h
      · have hb : (decide (c = '/') && decide (d = '*')) = false := by
          rcases Decidable.not_and_iff_or_not.mp hcd with hc | hd
          · simp [hc]
          · simp [hd]
        show removeBlockF (f + 1) (c :: d :: rest) = c :: d :: rest
        rw [show removeBlockF (f + 1) (c :: d :: rest)
              = c :: removeBlockF f (d :: rest) by
            simp [removeBlockF, hb]]
        rw [ih (d :: rest) (hasSub_cons_false _ c _ h)]

theorem removeBlockComments_id (l : List Char)
    (h : hasSub ['/', '*'] l = false) : removeBlockComments l = l :=
  removeBlockF_id l.length l h

theorem removeLineAux_true_head : ∀ (l : List Char) (ch : Char),
    (removeLineAux true l).head? = some ch → ch = '\r' ∨ ch = '\n' := by
  intro l
  induction l with
  | nil => intro ch h; simp [removeLineAux] at h
  | cons c rest ih =>
    intro ch h
    by_cases hc : c = '\r' ∨ c = '\n'
    · have : removeLineAux true (c :: rest) = c :: removeLineAux false rest := by
        rcases hc with h1 | h1 <;> simp [removeLineAux, h1]
      rw [this] at h
      simp at h
      rw [← h]
      exact hc
    · push_neg at hc
      have : removeLineAux true (c :: rest) = removeLineAux true rest := by
        simp [removeLineAux, hc.1, hc.2]
      rw [this] at h
      exact ih ch h

theorem removeLineAux_no_open : ∀ (l : List Char) (mode : Bool),
    hasSub ['/', '*'] l = false →
    hasSub ['/', '*'] (removeLineAux mode l) = false := by
  intro l
  induction l with
  | nil => intro mode _; cases mode <;> simp [removeLineAux, hasSub, beginsWith]
  | cons c rest ih =>
    intro mode h
    have hrest := hasSub_cons_false _ c _ h
    cases mode with
    | false =>
      by_cases hc : c = '#'
      · rw [show removeLineAux false (c :: rest) = removeLineAux true rest by
            simp [removeLineAux, hc]]
        exact ih true hrest
      · rw [show removeLineAux false (c :: rest)
              = c :: removeLineAux false rest by simp [removeLineAux, hc]]
        cases hq : hasSub ['/', '*'] (c :: removeLineAux false rest)
        · rfl
        · exfalso
          simp only [hasSub, Bool.or_eq_true] at hq
          rcases hq with hq | hq
          · rcases beginsWith_pair _ _ _ hq with ⟨t, ht⟩
            have hcslash : c = '/' := by injection ht
            have hXtail : removeLineAux false rest = '*' :: t := by
              injection ht
            have hxstar : (removeLineAux false rest).head? = some '*' := by
              rw [hXtail]; rfl
            cases rest with
            | nil => simp [removeLineAux] at hxstar
            | cons r0 rr =>
              by_cases hr0 : r0 = '#'
              · rw [show removeLineAux false (r0 :: rr) = removeLineAux true rr by
                    simp [removeLineAux, hr0]] at hxstar
                rcases removeLineAux_true_head rr '*' hxstar with h1 | h1 <;>
                  exact absurd h1 (by decide)
              · rw [show removeLineAux false (r0 :: rr)
                      = r0 :: removeLineAux false rr by
                    simp [removeLineAux, hr0]] at hxstar
                simp at hxstar
                have : beginsWith ['/', '*'] (c :: r0 :: rr) = true := by
                  simp [beginsWith, hcslash, hxstar]
                rw [hasSub_of_beginsWith _ _ this] at h
                cases h
          · rw [ih false hrest] at hq
            cases hq
    | true =>
      by_cases hc : c = '\r' ∨ c = '\n'
      · have hstep : removeLineAux true (c :: rest) = c :: removeLineAux false rest := by
          rcases hc with h1 | h1 <;> simp [removeLineAux, h1]
        rw [hstep]
        cases hq : hasSub ['/', '*'] (c :: removeLineAux false rest)
        · rfl
        · exfalso
          simp only [hasSub, Bool.or_eq_true] at hq
          rcases hq with hq | hq
          · rcases beginsWith_pair _ _ _ hq with ⟨t, ht⟩
            have hcslash : c = '/' := by
              have := congrArg List.head? ht; simpa using this
            rcases hc with h1 | h1 <;> rw [h1] at hcslash <;>
              exact absurd hcslash (by decide)
          · rw [ih false hrest] at hq
            cases hq
      · push_neg at hc
        rw [show removeLineAux true (c :: rest) = removeLineAux true rest by
            simp [removeLineAux, hc.1, hc.2]]
        exact ih true hrest

theorem collapseWsAux_false_head (l : List Char) (ch : Char)
    (h : (collapseWsAux false l).head? = some ch) :
    ch = ' ' ∨ l.head? = some ch := by
  cases l with
  | nil => simp [collapseWsAux] at h
  | cons c rest =>
    by_cases hs : isJsSpace c
    · rw [show collapseWsAux false (c :: rest) = ' ' :: collapseWsAux true rest by
          simp [collapseWsAux, hs]] at h
      simp at h
      exact Or.inl h.symm
    · rw [show collapseWsAux false (c :: rest) = c :: collapseWsAux false rest by
          simp [collapseWsAux, hs]] at h
      simp at h
      exact Or.inr (by rw [h]; rfl)

theorem collapseWsAux_no_open : ∀ (l : List Char) (b : Bool),
    hasSub ['/', '*'] l = false →
    hasSub ['/', '*'] (collapseWsAux b l) = false := by
  intro l
  induction l with
  | nil => intro b _; cases b <;> simp [collapseWsAux, hasSub, beginsWith]
  | cons c rest ih =>
    intro b h
    have hrest := hasSub_cons_false _ c _ h
    by_cases hs : isJsSpace c
    · have hx : hasSub ['/', '*'] (' ' :: collapseWsAux true rest) = false := by
        cases hq : hasSub ['/', '*'] (' ' :: collapseWsAux true rest)
        · rfl
        · exfalso
          simp only [hasSub, Bool.or_eq_true] at hq
          rcases hq with hq | hq
          · rcases beginsWith_pair _ _ _ hq with ⟨t, ht⟩
            have : (' ' : Char) = '/' := by injection ht
            exact absurd this (by decide)
          · rw [ih true hrest] at hq
            cases hq
      cases b with
      | false =>
        rw [show collapseWsAux false (c :: rest) = ' ' :: collapseWsAux true rest by
            simp [collapseWsAux, hs]]
        exact hx
      | true =>
        rw [show collapseWsAux true (c :: rest) = collapseWsAux true rest by
            simp [collapseWsAux, hs]]
        exact ih true hrest
    · rw [show collapseWsAux b (c :: rest) = c :: collapseWsAux false rest by
          simp [collapseWsAux, hs]]
      cases hq : hasSub ['/', '*'] (c :: collapseWsAux false rest)
      · rfl
      · exfalso
        simp only [hasSub, Bool.or_eq_true] at hq
        rcases hq with hq | hq
        · rcases beginsWith_pair _ _ _ hq with ⟨t, ht⟩
          have hcslash : c = '/' := by injection ht
          have hXtail : collapseWsAux false rest = '*' :: t := by injection ht
          have hstar := collapseWsAux_false_head rest '*' (by rw [hXtail]; rfl)
          rcases hstar with h1 | h1
          · exact absurd h1 (by decide)
          · cases rest with
            | nil => simp at h1
            | cons r0 rr =>
              simp at h1
              have : beginsWith ['/', '*'] (c :: r0 :: rr) = true := by
                simp [beginsWith, hcslash, h1]
              rw [hasSub_of_beginsWith _ _ this] at h
              cases h
        · rw [ih false hrest] at hq
          cases hq

/-! Character membership through the pipeline stages. -/

theorem removeLineAux_no_hash : ∀ (l : List Char) (mode : Bool),
    '#' ∉ removeLineAux mode l := by
  intro l
  induction l with
  | nil => intro mode; cases mode <;> simp [removeLineAux]
  | cons c rest ih =>
    intro mode
    cases mode with
    | false =>
      by_cases hc : c = '#'
      · rw [show removeLineAux false (c :: rest) = removeLineAux true rest by
            simp [removeLineAux, hc]]
        exact ih true
      · rw [show removeLineAux false (c :: rest) = c :: removeLineAux false rest by
            simp [removeLineAux, hc]]
        intro hmem
        rcases List.mem_cons.mp hmem with h1 | h1
        · exact hc h1.symm
        · exact ih false h1
    | true =>
      by_cases hc : c = '\r' ∨ c = '\n'
      · have hstep : removeLineAux true (c :: rest) = c :: removeLineAux false rest := by
          rcases hc with h1 | h1 <;> simp [removeLineAux, h1]
        rw [hstep]
        intro hmem
        rcases List.mem_cons.mp hmem with h1 | h1
        · rcases hc with h2 | h2 <;> rw [h2] at h1 <;> exact absurd h1 (by decide)
        · exact ih false h1
      · push_neg at hc
        rw [show removeLineAux true (c :: rest) = removeLineAux true rest by
            simp [removeLineAux, hc.1, hc.2]]
        exact ih true

theorem collapseWsAux_mem : ∀ (l : List Char) (b : Bool) (c : Char),
    c ∈ collapseWsAux b l → c = ' ' ∨ c ∈ l := by
  intro l
  induction l with
  | nil => intro b c h; cases b <;> simp [collapseWsAux] at h
  | cons x rest ih =>
    intro b c h
    by_cases hs : isJsSpace x
    · cases b with
      | false =>
        rw [show collapseWsAux false (x :: rest) = ' ' :: collapseWsAux true rest by
            simp [collapseWsAux, hs]] at h
        rcases List.mem_cons.mp h with h1 | h1
        · exact Or.inl h1
        · rcases ih true c h1 with h2 | h2
          · exact Or.inl h2
          · exact Or.inr (List.mem_cons_of_mem x h2)
      | true =>
        rw [show collapseWsAux true (x :: rest) = collapseWsAux true rest by
            simp [collapseWsAux, hs]] at h
        rcases ih true c h with h2 | h2
        · exact Or.inl h2
        · exact Or.inr (List.mem_cons_of_mem x h2)
    · rw [show collapseWsAux b (x :: rest) = x :: collapseWsAux false rest by
          simp [collapseWsAux, hs]] at h
      rcases List.mem_cons.mp h with h1 | h1
      · exact Or.inr (by rw [h1]; exact List.mem_cons_self x rest)
      · rcases ih false c h1 with h2 | h2
        · exact Or.inl h2
        · exact Or.inr (List.mem_cons_of_mem x h2)

theorem trimRightWs_decomp : ∀ (l : List Char),
    ∃ b, l = trimRightWs l ++ b := by
  intro l
  induction l with
  | nil => exact ⟨[], rfl⟩
  | cons c rest ih =>
    rcases ih with ⟨b0, hb0⟩
    cases hM : trimRightWs rest with
    | nil =>
      by_cases hs : isJsSpace c
      · refine ⟨c :: rest, ?_⟩
        rw [show trimRightWs (c :: rest) = [] by simp [trimRightWs, hM, hs]]
        rfl
      · refine ⟨rest, ?_⟩
        rw [show trimRightWs (c :: rest) = [c] by simp [trimRightWs, hM, hs]]
        rfl
    | cons r0 rr =>
      refine ⟨b0, ?_⟩
      rw [show trimRightWs (c :: rest) = c :: trimRightWs rest by
          simp [trimRightWs, hM]]
      rw [List.cons_append]
      rw [← hb0]

theorem trimChars_mem (l : List Char) (c : Char) (h : c ∈ trimChars l) :
    c ∈ l := by
  rcases trimRightWs_decomp l with ⟨b, hb⟩
  have h1 : c ∈ trimRightWs l :=
    (List.dropWhile_sublist _).subset h
  rw [hb]
  exact List.mem_append_left b h1

theorem hasSub_false_trimChars (n l : List Char)
    (h : hasSub n l = false) : hasSub n (trimChars l) = false := by
  rcases trimRightWs_decomp l with ⟨b, hb⟩
  have h1 : hasSub n (trimRightWs l) = false := by
    rw [hb] at h
    exact hasSub_false_append_right n _ b h
  have h2 : trimRightWs l
      = (trimRightWs l).takeWhile isJsSpace ++ trimChars l := by
    unfold trimChars trimLeftWs
    rw [List.takeWhile_append_dropWhile]
  rw [h2] at h1
  exact hasSub_false_append_left n _ _ h1

/-! Whitespace normal form: collapsed text has only plain spaces as
whitespace and no two adjacent whitespace characters; on such text (trimmed)
every stage of the sanitizer is the identity. -/

/-- No two adjacent whitespace characters. -/
def noAdjSpace : List Char → Bool
  | [] => true
  | [_] => true
  | a :: b :: rest => !(isJsSpace a && isJsSpace b) && noAdjSpace (b :: rest)

/-- Every whitespace character in the list is a plain space. -/
def SpacesBlank (l : List Char) : Prop :=
  ∀ c ∈ l, isJsSpace c = true → c = ' '

theorem collapseWsAux_true_head : ∀ (l : List Char) (ch : Char),
    (collapseWsAux true l).head? = some ch → isJsSpace ch = false := by
  intro l
  induction l with
  | nil => intro ch h; simp [collapseWsAux] at h
  | cons c rest ih =>
    intro ch h
    by_cases hs : isJsSpace c
    · rw [show collapseWsAux true (c :: rest) = collapseWsAux true rest by
          simp [collapseWsAux, hs]] at h
      exact ih ch h
    · rw [show collapseWsAux true (c :: rest) = c :: collapseWsAux false rest by
          simp [collapseWsAux, hs]] at h
      simp at h
      rw [← h]
      exact eq_false_of_ne_true hs

theorem noAdjSpace_cons (a : Char) (t : List Char)
    (h1 : ∀ ch, t.head? = some ch → (isJsSpace a && isJsSpace ch) = false)
    (h2 : noAdjSpace t = true) : noAdjSpace (a :: t) = true := by
  cases t with
  | nil => rfl
  | cons b rest =>
    have := h1 b rfl
    simp [noAdjSpace, this, h2]

theorem noAdjSpace_tail (a : Char) (t : List Char)
    (h : noAdjSpace (a :: t) = true) : noAdjSpace t = true := by
  cases t with
  | nil => rfl
  | cons b rest =>
    simp [noAdjSpace] at h
    exact h.2

theorem collapseWsAux_noAdj : ∀ (l : List Char) (b : Bool),
    noAdjSpace (collapseWsAux b l) = true := by
  intro l
  induction l with
  | nil => intro b; cases b <;> rfl
  | cons c rest ih =>
    intro b
    by_cases hs : isJsSpace c
    · cases b with
      | true =>
        rw [show collapseWsAux true (c :: rest) = collapseWsAux true rest by
            simp [collapseWsAux, hs]]
        exact ih true
      | false =>
        rw [show collapseWsAux false (c :: rest) = ' ' :: collapseWsAux true rest by
            simp [collapseWsAux, hs]]
        apply noAdjSpace_cons
        · intro ch hch
          rw [collapseWsAux_true_head rest ch hch]
          simp
        · exact ih true
    · rw [show collapseWsAux b (c :: rest) = c :: collapseWsAux false rest by
          simp [collapseWsAux, hs]]
      apply noAdjSpace_cons
      · intro ch _
        simp [eq_false_of_ne_true hs]
      · exact ih false

theorem collapseWsAux_blank : ∀ (l : List Char) (b : Bool),
    SpacesBlank (collapseWsAux b l) := by
  intro l
  induction l with
  | nil => intro b c hc; cases b <;> simp [collapseWsAux] at hc
  | cons x rest ih =>
    intro b c hc hcs
    by_cases hs : isJsSpace x
    · cases b with
      | true =>
        rw [show collapseWsAux true (x :: rest) = collapseWsAux true rest by
            simp [collapseWsAux, hs]] at hc
        exact ih true c hc hcs
      | false =>
        rw [show collapseWsAux false (x :: rest) = ' ' :: collapseWsAux true rest by
            simp [collapseWsAux, hs]] at hc
        rcases List.mem_cons.mp hc with h1 | h1
        · exact h1
        · exact ih true c h1 hcs
    · rw [show collapseWsAux b (x :: rest) = x :: collapseWsAux false rest by
          simp [collapseWsAux, hs]] at hc
      rcases List.mem_cons.mp hc with h1 | h1
      · exact absurd (h1 ▸ hcs) (by simpa using hs)
      · exact ih false c h1 hcs

theorem noAdjSpace_append_left : ∀ (t b : List Char),
    noAdjSpace (t ++ b) = true → noAdjSpace t = true := by
  intro t
  induction t with
  | nil => intro b _; rfl
  | cons x xs ih =>
    intro b h
    cases xs with
    | nil => rfl
    | cons y ys =>
      rw [List.cons_append, List.cons_append] at h
      simp only [noAdjSpace, Bool.and_eq_true] at h
      rw [← List.cons_append] at h
      refine noAdjSpace_cons x (y :: ys) ?_ (ih b h.2)
      intro ch hch
      simp at hch
      rw [← hch]
      have h1 := h.1
      cases hb : (isJsSpace x && isJsSpace y)
      · rfl
      · simp [hb] at h1

theorem noAdjSpace_suffix : ∀ (a t : List Char),
    noAdjSpace (a ++ t) = true → noAdjSpace t = true := by
  intro a
  induction a with
  | nil => intro t h; exact h
  | cons x xs ih =>
    intro t h
    rw [List.cons_append] at h
    exact ih t (noAdjSpace_tail x (xs ++ t) h)

theorem collapseWsAux_id : ∀ (l : List Char),
    SpacesBlank l → noAdjSpace l = true → collapseWsAux false l = l := by
  intro l
  induction l with
  | nil => intro _ _; rfl
  | cons c rest ih =>
    intro hblank hadj
    have hblankRest : SpacesBlank rest := fun x hx => hblank x (List.mem_cons_of_mem c hx)
    have hadjRest := noAdjSpace_tail c rest hadj
    by_cases hs : isJsSpace c
    · have hcsp : c = ' ' := hblank c (List.mem_cons_self c rest) hs
      rw [show collapseWsAux false (c :: rest) = ' ' :: collapseWsAux true rest by
          simp [collapseWsAux, hs]]
      cases rest with
      | nil => rw [hcsp]; rfl
      | cons r0 rr =>
        have hr0 : isJsSpace r0 = false := by
          simp only [noAdjSpace, Bool.and_eq_true] at hadj
          have := hadj.1
          simp [hs] at this
          exact this
        have hstep : collapseWsAux true (r0 :: rr) = r0 :: collapseWsAux false rr := by
          simp [collapseWsAux, hr0]
        have hstep2 : collapseWsAux false (r0 :: rr) = r0 :: collapseWsAux false rr := by
          simp [collapseWsAux, hr0]
        have hihres := ih hblankRest hadjRest
        rw [hstep2] at hihres
        rw [hstep, hcsp]
        injection hihres with _ htail
        rw [htail]
    · rw [show collapseWsAux false (c :: rest) = c :: collapseWsAux false rest by
          simp [collapseWsAux, hs]]
      rw [ih hblankRest hadjRest]

theorem trimRightWs_getLast : ∀ (l : List Char) (ch : Char),
    (trimRightWs l).getLast? = some ch → isJsSpace ch = false := by
  intro l
  induction l with
  | nil => intro ch h; simp [trimRightWs] at h
  | cons c rest ih =>
    intro ch h
    cases hM : trimRightWs rest with
    | nil =>
      by_cases hs : isJsSpace c
      · rw [show trimRightWs (c :: rest) = [] by simp [trimRightWs, hM, hs]] at h
        simp at h
      · rw [show trimRightWs (c :: rest) = [c] by simp [trimRightWs, hM, hs]] at h
        simp at h
        rw [← h]
        exact eq_false_of_ne_true hs
    | cons r0 rr =>
      rw [show trimRightWs (c :: rest) = c :: trimRightWs rest by
          simp [trimRightWs, hM]] at h
      rw [hM] at h
      rw [List.getLast?_cons_cons] at h
      exact ih ch (by rw [hM]; exact h)

theorem trimRightWs_id : ∀ (l : List Char),
    (∀ ch, l.getLast? = some ch → isJsSpace ch = false) → trimRightWs l = l := by
  intro l
  induction l with
  | nil => intro _; rfl
  | cons c rest ih =>
    intro h
    cases rest with
    | nil =>
      have hc := h c rfl
      simp [trimRightWs, hc]
    | cons r0 rr =>
      have hrest : trimRightWs (r0 :: rr) = r0 :: rr := by
        apply ih
        intro ch hch
        apply h
        rw [List.getLast?_cons_cons]
        exact hch
      show trimRightWs (c :: r0 :: rr) = c :: r0 :: rr
      rw [show trimRightWs (c :: r0 :: rr)
            = match trimRightWs (r0 :: rr) with
              | [] => if isJsSpace c then [] else [c]
              | r => c :: r from rfl]
      rw [hrest]

theorem getLast?_append_right {α : Type} : ∀ (a t : List α), t ≠ [] →
    (a ++ t).getLast? = t.getLast? := by
  intro a
  induction a with
  | nil => intro t _; rfl
  | cons x xs ih =>
    intro t ht
    rcases List.exists_cons_of_ne_nil
        (show xs ++ t ≠ [] by simp [ht]) with ⟨y, ys, hys⟩
    rw [List.cons_append, hys, List.getLast?_cons_cons, ← hys, ih t ht]

theorem dropWhile_self (p : Char → Bool) : ∀ (l : List Char),
    (l.dropWhile p).dropWhile p = l.dropWhile p := by
  intro l
  induction l with
  | nil => rfl
  | cons c rest ih =>
    by_cases hp : p c
    · rw [List.dropWhile_cons_of_pos hp, ih]
    · rw [List.dropWhile_cons_of_neg hp, List.dropWhile_cons_of_neg hp]

theorem removeLineAux_id_of_no_hash : ∀ (l : List Char),
    '#' ∉ l → removeLineAux false l = l := by
  intro l
  induction l with
  | nil => intro _; rfl
  | cons c rest ih =>
    intro hHash
    have hc : ¬ c = '#' := fun hcc =>
      hHash (by rw [hcc]; exact List.mem_cons_self _ _)
    rw [show removeLineAux false (c :: rest) = c :: removeLineAux false rest by
        simp [removeLineAux, hc]]
    rw [ih (fun hm => hHash (List.mem_cons_of_mem c hm))]

theorem sanitizeQuery_fixed_point (s : String)
    (h : hasSub ['/', '*'] s.data = false) :
    sanitizeQuery (sanitizeQuery s) = sanitizeQuery s := by
  obtain ⟨t, houter, hSSt, hHashT, hBlankT, hAdjT, hLastT, hDropT⟩ :
      ∃ t : List Char, sanitizeQuery s = ⟨t⟩
        ∧ hasSub ['/', '*'] t = false
        ∧ '#' ∉ t
        ∧ SpacesBlank t
        ∧ noAdjSpace t = true
        ∧ (∀ ch, t.getLast? = some ch → isJsSpace ch = false)
        ∧ t.dropWhile isJsSpace = t := by
    have hSSu : hasSub ['/', '*'] (removeLineAux false s.data) = false :=
      removeLineAux_no_open s.data false h
    have hSSv :
        hasSub ['/', '*'] (collapseWsAux false (removeLineAux false s.data)) = false :=
      collapseWsAux_no_open _ false hSSu
    refine ⟨(trimRightWs (collapseWsAux false
        (removeLineAux false s.data))).dropWhile isJsSpace,
      ?_, ?_, ?_, ?_, ?_, ?_, ?_⟩
    · unfold sanitizeQuery removeLineComments collapseWs trimChars trimLeftWs
      rw [removeBlockComments_id s.data h]
    · exact hasSub_false_trimChars _ _ hSSv
    · intro hmem
      have h1 : '#' ∈ collapseWsAux false (removeLineAux false s.data) :=
        trimChars_mem _ '#' hmem
      rcases collapseWsAux_mem _ false '#' h1 with h2 | h2
      · exact absurd h2 (by decide)
      · exact removeLineAux_no_hash s.data false h2
    · exact fun c hc hcs => collapseWsAux_blank _ false c (trimChars_mem _ c hc) hcs
    · have h1 : noAdjSpace (trimRightWs (collapseWsAux false
          (removeLineAux false s.data))) = true := by
        rcases trimRightWs_decomp (collapseWsAux false
            (removeLineAux false s.data)) with ⟨b, hb⟩
        apply noAdjSpace_append_left _ b
        rw [← hb]
        exact collapseWsAux_noAdj _ false
      apply noAdjSpace_suffix ((trimRightWs (collapseWsAux false
          (removeLineAux false s.data))).takeWhile isJsSpace)
      rw [List.takeWhile_append_dropWhile]
      exact h1
    · intro ch hch
      have htne : (trimRightWs (collapseWsAux false
          (removeLineAux false s.data))).dropWhile isJsSpace ≠ [] := by
        intro hnil; rw [hnil] at hch; simp at hch
      have hlast : (trimRightWs (collapseWsAux false
            (removeLineAux false s.data))).getLast?
          = ((trimRightWs (collapseWsAux false
            (removeLineAux false s.data))).dropWhile isJsSpace).getLast? := by
        conv_lhs => rw [← List.takeWhile_append_dropWhile (p := isJsSpace)
          (l := trimRightWs (collapseWsAux false (removeLineAux false s.data)))]
        exact getLast?_append_right _ _ htne
      exact trimRightWs_getLast _ ch (by rw [hlast]; exact hch)
    · exact dropWhile_self isJsSpace _
  rw [houter]
  have p1 : removeBlockComments t = t := removeBlockComments_id t hSSt
  have p2 : removeLineAux false t = t := removeLineAux_id_of_no_hash t hHashT
  have p3 : collapseWsAux false t = t := collapseWsAux_id t hBlankT hAdjT
  have p4 : trimRightWs t = t := trimRightWs_id t hLastT
  show sanitizeQuery ⟨t⟩ = ⟨t⟩
  unfold sanitizeQuery removeLineComments collapseWs trimChars trimLeftWs
  show String.mk ((trimRightWs (collapseWsAux false (removeLineAux false
      (removeBlockComments t)))).dropWhile isJsSpace) = ⟨t⟩
  rw [p1, p2, p3, p4, hDropT]

/-! Support lemmas for the orchestration claims. -/

theorem hasSub_of_part (n x a b : List Char) (h : hasSub n x = true) :
    hasSub n (a ++ (x ++ b)) = true :=
  hasSub_append_left _ _ _ (hasSub_append_right _ _ _ h)

theorem hasSub_self_String (x : String) : hasSub x.data x.data = true :=
  hasSub_of_beginsWith _ _ (beginsWith_self x.data)

theorem handleConfigureGraphQL_error_frame
    (st : ServerState) (env : PartialConfig) (args : Option ConfigureArgs)
    (probeOk : Bool) (introspection : Option GqlSchema) (now : Nat) (e : McpError)
    (h : (handleConfigureGraphQL st env args probeOk introspection now).2
        = Except.error e) :
    (handleConfigureGraphQL st env args probeOk introspection now).1 = st := by
  unfold handleConfigureGraphQL at h ⊢
  cases args with
  | none => rfl
  | some a =>
    dsimp only at h ⊢
    cases hE : (mergeConfig env (zodParseConfigureArgs a)).endpoint with
    | none => simp [hE]
    | some ep =>
      rw [hE] at h
      simp only [hE]
      by_cases hp : probeOk
      · exfalso
        rw [hp] at h
        simp only [Bool.not_true, Bool.false_eq_true, if_false] at h
        cases introspection with
        | none => simp at h
        | some sch => simp at h
      · have hp2 : probeOk = false := by
          cases probeOk
          · rfl
          · exact absurd rfl hp
        rw [hp2]
        simp

theorem handleGraphQLResolver_texts
    (st : ServerState) (tool : DynTool) (args : List (String × JsonVal))
    (client : ClientHandle) (cfg : MergedConfig) (payload msg : String)
    (hcl : st.client = some client) (hcf : st.config = some cfg)
    (hval : validateQueryConstraints
        (buildResolverQuery tool args st.cachedSchema) cfg = Except.ok ()) :
    (∃ r, handleGraphQLResolver st tool args (Except.error msg) = Except.ok r
      ∧ r.isError = true
      ∧ hasSub (buildResolverQuery tool args st.cachedSchema).data r.text.data = true
      ∧ hasSub msg.data r.text.data = true)
    ∧ (∃ r, handleGraphQLResolver st tool args (Except.ok payload) = Except.ok r
      ∧ r.isError = false
      ∧ hasSub payload.data r.text.data = true) := by
  constructor
  · refine ⟨⟨"❌ "
        ++ (if tool.resolver.type = "mutation" then "Mutation" else "Query")
        ++ " failed: " ++ tool.resolver.fieldName
        ++ "\n\nError: " ++ msg ++ "\n\nQuery:\n"
        ++ buildResolverQuery tool args st.cachedSchema, true⟩, ?_, rfl, ?_, ?_⟩
    · unfold handleGraphQLResolver
      rw [hcl, hcf]
      dsimp only
      rw [hval]
    · show hasSub (buildResolverQuery tool args st.cachedSchema).data
        ("❌ " ++ (if tool.resolver.type = "mutation" then "Mutation" else "Query")
          ++ " failed: " ++ tool.resolver.fieldName
          ++ "\n\nError: " ++ msg ++ "\n\nQuery:\n"
          ++ buildResolverQuery tool args st.cachedSchema).data = true
      simp only [String.data_append, List.append_assoc]
      apply hasSub_append_left
      apply hasSub_append_left
      apply hasSub_append_left
      apply hasSub_append_left
      apply hasSub_append_left
      apply hasSub_append_left
      apply hasSub_append_left
      exact hasSub_self_String _
    · show hasSub msg.data
        ("❌ " ++ (if tool.resolver.type = "mutation" then "Mutation" else "Query")
          ++ " failed: " ++ tool.resolver.fieldName
          ++ "\n\nError: " ++ msg ++ "\n\nQuery:\n"
          ++ buildResolverQuery tool args st.cachedSchema).data = true
      simp only [String.data_append, List.append_assoc]
      apply hasSub_append_left
      apply hasSub_append_left
      apply hasSub_append_left
      apply hasSub_append_left
      apply hasSub_append_left
      exact hasSub_append_right _ _ _ (hasSub_self_String msg)
  · refine ⟨⟨"✅ "
        ++ (if tool.resolver.type = "mutation" then "Mutation" else "Query")
        ++ " executed: " ++ tool.resolver.fieldName
        ++ "\n\nEndpoint: " ++ st.endpoint.getD "null"
        ++ "\n\nResult:\n" ++ payload, false⟩, ?_, rfl, ?_⟩
    · unfold handleGraphQLResolver
      rw [hcl, hcf]
      dsimp only
      rw [hval]
    · show hasSub payload.data
        ("✅ " ++ (if tool.resolver.type = "mutation" then "Mutation" else "Query")
          ++ " executed: " ++ tool.resolver.fieldName
          ++ "\n\nEndpoint: " ++ st.endpoint.getD "null"
          ++ "\n\nResult:\n" ++ payload).data = true
      simp only [String.data_append, List.append_assoc]
      apply hasSub_append_left
      apply hasSub_append_left
      apply hasSub_append_left
      apply hasSub_append_left
      apply hasSub_append_left
      apply hasSub_append_left
      apply hasSub_append_left
      exact hasSub_self_String payload

theorem buildVarPairs_unknown_mem
    (resolverArgs : List GqlArg) (args : List (String × JsonVal))
    (k : String) (v : JsonVal) (hmem : (k, v) ∈ args)
    (hfind : resolverArgs.find? (fun a => a.name = k) = none) :
    ("$" ++ k ++ ": String") ∈ buildVarPairs resolverArgs args := by
  unfold buildVarPairs
  exact List.mem_map.mpr ⟨(k, v), hmem, by simp [varDeclPair, hfind]⟩

theorem buildResolverQuery_contains_unknown_decl
    (tool : DynTool) (args : List (String × JsonVal)) (schema : Option GqlSchema)
    (k : String) (v : JsonVal) (hmem : (k, v) ∈ args)
    (hfind : tool.resolver.args.find? (fun a => a.name = k) = none) :
    hasSub ("$" ++ k ++ ": String").data
      (buildResolverQuery tool args schema).data = true := by
  have hjoin := hasSub_joinSep ("$" ++ k ++ ": String") ", "
    (buildVarPairs tool.resolver.args args)
    (buildVarPairs_unknown_mem tool.resolver.args args k v hmem hfind)
  have hne : args ≠ [] := List.ne_nil_of_mem hmem
  have hisEmpty : args.isEmpty = false := by
    cases args with
    | nil => exact absurd rfl hne
    | cons x xs => rfl
  unfold buildResolverQuery
  dsimp only
  rw [hisEmpty]
  simp only [Bool.false_eq_true, if_false]
  simp only [String.data_append, List.append_assoc]
  apply hasSub_append_left
  apply hasSub_append_left
  apply hasSub_append_left
  exact hasSub_append_right _ _ _ hjoin

/-! Concrete instances used by the counterexamples and witnesses. -/

/-- A root Query field named `ping` returning a plain String. -/
def pingField : GqlField :=
  { name := "ping", description := none, args := [], type := TypeRef.scalar "String" }

/-- A one-field introspection schema. -/
def schemaA : GqlSchema :=
  { queryType := some { name := "Query" }, mutationType := none,
    types := [{ name := "Query", fields := some [pingField] }] }

/-- Empty environment: no GRAPHQL_* variables set. -/
def envEmpty : PartialConfig := {}

/-- Environment with endpoint, timeout, depth and disabled-resolver values
(the parsed result of GRAPHQL_ENDPOINT, GRAPHQL_TIMEOUT=5000,
GRAPHQL_MAX_DEPTH=3, GRAPHQL_DISABLED_RESOLVERS=secretField). -/
def envT : PartialConfig :=
  { endpoint := some "https://env.example/graphql", timeout := some 5000,
    maxDepth := some 3, disabledResolvers := some ["secretField"] }

/-- Explicit arguments: endpoint A only. -/
def argsA : ConfigureArgs := { endpoint := some "https://a.example/graphql" }

/-- Explicit arguments: endpoint B only (the failing reconfiguration). -/
def argsB : ConfigureArgs := { endpoint := some "https://b.example/graphql" }

/-- Server state after a successful configuration of endpoint A with
introspection returning `schemaA`: one dynamic tool. -/
def stA : ServerState :=
  (handleConfigureGraphQL initialState envEmpty (some argsA) true (some schemaA) 1000).1

/-- The client stored in `stA`. -/
def clientA : ClientHandle :=
  { endpoint := "https://a.example/graphql", headers := [] }

/-- The merged configuration stored in `stA`. -/
def cfgA : MergedConfig :=
  { endpoint := some "https://a.example/graphql", headers := [],
    timeout := 30000, maxDepth := 10, maxComplexity := 100, disabledResolvers := [] }

/-- The dynamic tool generated for `pingField`. -/
def toolPing : DynTool := mkResolverTool "query" pingField

/-- A configuration with both limits at 1. -/
def cfgTight : MergedConfig :=
  { endpoint := some "https://a.example/graphql", headers := [],
    timeout := 30000, maxDepth := 1, maxComplexity := 1, disabledResolvers := [] }

/-- A configuration with maxDepth 2 and a generous complexity limit. -/
def cfgDepth2 : MergedConfig :=
  { endpoint := some "https://a.example/graphql", headers := [],
    timeout := 30000, maxDepth := 2, maxComplexity := 100, disabledResolvers := [] }

/-- A configuration disabling the resolver name `Country`. -/
def cfgCountry : MergedConfig :=
  { endpoint := some "https://a.example/graphql", headers := [],
    timeout := 30000, maxDepth := 10, maxComplexity := 100,
    disabledResolvers := ["Country"] }

/-- A query whose brace depth (4) and complexity (3) both exceed
`cfgTight`'s limits. -/
def qDeep : String := "\x7b a \x7b b \x7b c \x7b d \x7d \x7d \x7d \x7d"

/-! Claim theorems. -/

/-- Claim C1 (counterexample): after a successful configuration of endpoint
A (one dynamic tool), a reconfiguration attempt whose connectivity probe
fails returns an error but leaves the old client, config and tool list fully
in place — `get_status` still reports `configured = true` and one dynamic
tool, contradicting the claim that the state is left unconfigured with zero
dynamic tools. -/
theorem claim_C1_counterexample :
    (handleConfigureGraphQL stA envEmpty (some argsB) false none 2000).2
        = Except.error McpError.connectFailed
    ∧ (handleConfigureGraphQL stA envEmpty (some argsB) false none 2000).1 = stA
    ∧ stA.dynamicTools.length = 1
    ∧ (handleGetStatus stA 2000).configured = true
    ∧ stA.client.isSome = true := by decide

/-- Claim C1 (amended): every reconfiguration attempt that fails — invalid
arguments, no endpoint resolving, or a failed connectivity probe — leaves
the entire server state exactly as it was (prior client, config, cached
schema and dynamic tools all intact); the state is only replaced after a
successful probe, so no mixture of old tools with a new failed
configuration ever arises. -/
theorem claim_C1_amended (st : ServerState) (env : PartialConfig)
    (args : Option ConfigureArgs) (probeOk : Bool)
    (introspection : Option GqlSchema) (now : Nat) (e : McpError)
    (h : (handleConfigureGraphQL st env args probeOk introspection now).2
        = Except.error e) :
    (handleConfigureGraphQL st env args probeOk introspection now).1 = st :=
  handleConfigureGraphQL_error_frame st env args probeOk introspection now e h

/-- Witness for C1: a configure call with rejected arguments leaves the
initial state unchanged. -/
theorem claim_C1_witness :
    (handleConfigureGraphQL initialState envEmpty none true none 0).1
      = initialState :=
  claim_C1_amended initialState envEmpty none true none 0
    McpError.invalidArguments (by decide)

/-- Claim C2: the tool-call dispatcher knows only `get_status` and the
dynamic resolver tools; invoking `configure_graphql` or `introspect_schema`
— both advertised in the file's own header documentation and in its own
"not configured" error message — produces the unknown-tool MethodNotFound
error instead of running a handler, in the fresh state and in a configured
state alike. -/
theorem claim_C2_not_dispatchable :
    dispatchToolCall initialState "configure_graphql"
        = DispatchOutcome.unknownTool ["get_status"]
    ∧ dispatchToolCall initialState "introspect_schema"
        = DispatchOutcome.unknownTool ["get_status"]
    ∧ dispatchToolCall stA "configure_graphql"
        = DispatchOutcome.unknownTool ["get_status", "query_ping"]
    ∧ dispatchToolCall stA "introspect_schema"
        = DispatchOutcome.unknownTool ["get_status", "query_ping"] := by decide

/-- Claim C3: the configure merge does not give environment values
field-by-field precedence only where explicit values were supplied: zod
fills defaults for absent `timeout`, `maxDepth`, `maxComplexity` and
`disabledResolvers`, and the spread overrides the environment values with
those defaults, so with GRAPHQL_TIMEOUT=5000, GRAPHQL_MAX_DEPTH=3 and a
disabled-resolver list in the environment, a configure call supplying none
of these fields yields timeout 30000, maxDepth 10 and an empty disabled
list; only `endpoint` (and the key-merged headers) fall back to the
environment. -/
theorem claim_C3_env_defaults_overridden :
    (mergeConfig envT (zodParseConfigureArgs {})).timeout = 30000
    ∧ (mergeConfig envT (zodParseConfigureArgs {})).maxDepth = 10
    ∧ (mergeConfig envT (zodParseConfigureArgs {})).disabledResolvers = []
    ∧ envT.timeout = some 5000
    ∧ envT.maxDepth = some 3
    ∧ envT.disabledResolvers = some ["secretField"]
    ∧ (mergeConfig envT (zodParseConfigureArgs {})).endpoint
        = some "https://env.example/graphql" := by decide

/-- Claim C4 (counterexample): a successful dynamic-tool invocation returns
a non-error response whose text does not contain the executed query text,
contradicting the claim that the success result carries the query text. -/
theorem claim_C4_counterexample :
    ((handleGraphQLResolver stA toolPing [] (Except.ok "42")).toOption.map
      (fun r => (r.isError,
        hasSub (buildResolverQuery toolPing [] stA.cachedSchema).data
          r.text.data)))
    = some (false, false) := by decide

/-- Claim C4 (amended): for every dynamic-tool invocation that passes
validation, the failure result carries the error message plus the attempted
query text, while the success result carries the raw response payload (with
field name and endpoint) but not the query text. -/
theorem claim_C4_amended
    (st : ServerState) (tool : DynTool) (args : List (String × JsonVal))
    (client : ClientHandle) (cfg : MergedConfig) (payload msg : String)
    (hcl : st.client = some client) (hcf : st.config = some cfg)
    (hval : validateQueryConstraints
        (buildResolverQuery tool args st.cachedSchema) cfg = Except.ok ()) :
    (∃ r, handleGraphQLResolver st tool args (Except.error msg) = Except.ok r
      ∧ r.isError = true
      ∧ hasSub (buildResolverQuery tool args st.cachedSchema).data
          r.text.data = true
      ∧ hasSub msg.data r.text.data = true)
    ∧ (∃ r, handleGraphQLResolver st tool args (Except.ok payload) = Except.ok r
      ∧ r.isError = false
      ∧ hasSub payload.data r.text.data = true) :=
  handleGraphQLResolver_texts st tool args client cfg payload msg hcl hcf hval

/-- Witness for C4 on the configured state `stA` and the `query_ping`
tool. -/
theorem claim_C4_witness :
    (∃ r, handleGraphQLResolver stA toolPing [] (Except.error "boom")
        = Except.ok r
      ∧ r.isError = true
      ∧ hasSub (buildResolverQuery toolPing [] stA.cachedSchema).data
          r.text.data = true
      ∧ hasSub "boom".data r.text.data = true)
    ∧ (∃ r, handleGraphQLResolver stA toolPing [] (Except.ok "42")
        = Except.ok r
      ∧ r.isError = false
      ∧ hasSub "42".data r.text.data = true) :=
  claim_C4_amended stA toolPing [] clientA cfgA "42" "boom"
    (by decide) (by decide) (by decide)

/-- Claim C5: the complexity score of `calculateQueryComplexity` equals the
number of word tokens followed (up to whitespace) by an opening brace or
parenthesis; the sample query scores exactly 1; and
`validateQueryConstraints` rejects with a complexity error exactly when the
score of the sanitized text strictly exceeds the configured
maxComplexity. -/
theorem claim_C5_complexity :
    calculateQueryComplexity "\x7b countries \x7b name code emoji \x7d \x7d" = 1
    ∧ (∀ s : String, calculateQueryComplexity s = wordTokensBeforeOpen s)
    ∧ (∀ (q : String) (cfg : MergedConfig),
        isComplexityError (validateQueryConstraints q cfg) = true ↔
          calculateQueryComplexity (sanitizeQuery q) > cfg.maxComplexity) :=
  ⟨by decide, calculateQueryComplexity_spec, isComplexityError_validate⟩

/-- Claim C6 (counterexample): on a query whose complexity (3) and depth (4)
both exceed the configured limits (both 1), validation rejects with the
complexity error, not a depth error, so "rejects with a depth error exactly
when the maximum strictly exceeds maxDepth" fails as stated. -/
theorem claim_C6_counterexample :
    calculateQueryDepth (sanitizeQuery qDeep) = 4
    ∧ cfgTight.maxDepth = 1
    ∧ isDepthError (validateQueryConstraints qDeep cfgTight) = false
    ∧ validateQueryConstraints qDeep cfgTight
        = Except.error (McpError.complexityExceeded 3 1) := by decide

/-- Claim C6 (amended): the depth score is total and equals the running
maximum of the brace counter (equivalently, the largest net brace balance
over all prefixes, tolerating decrements past zero); the sample query
scores 3 and an unbalanced input is handled; and, provided the complexity
check passed, `validateQueryConstraints` rejects with a depth error exactly
when the depth of the sanitized text strictly exceeds maxDepth (when both
limits are exceeded the complexity error takes precedence). -/
theorem claim_C6_amended :
    calculateQueryDepth "\x7b a \x7b b \x7b c \x7d \x7d \x7d" = 3
    ∧ calculateQueryDepth "\x7d\x7b\x7b" = 1
    ∧ (∀ s : String, calculateQueryDepth s = specQueryDepth s.data)
    ∧ (∀ (q : String) (cfg : MergedConfig),
        calculateQueryComplexity (sanitizeQuery q) ≤ cfg.maxComplexity →
        (isDepthError (validateQueryConstraints q cfg) = true ↔
          calculateQueryDepth (sanitizeQuery q) > (cfg.maxDepth : Int))) :=
  ⟨by decide, by decide, calculateQueryDepth_spec, isDepthError_validate⟩

/-- Witness for C6: with maxDepth 2 and the complexity check passing, the
depth-3 sample query is rejected with a depth error. -/
theorem claim_C6_witness :
    isDepthError (validateQueryConstraints
      "\x7b a \x7b b \x7b c \x7d \x7d \x7d" cfgDepth2) = true :=
  (claim_C6_amended.2.2.2 "\x7b a \x7b b \x7b c \x7d \x7d \x7d" cfgDepth2
    (by decide)).mpr (by decide)

/-- Claim C7 (counterexample): sanitization is not idempotent — removing the
block comment of `//**/*a*/` splices together the new block comment
`/*a*/`, which a second pass removes entirely. -/
theorem claim_C7_counterexample :
    sanitizeQuery "//**/*a*/" = "/*a*/"
    ∧ sanitizeQuery (sanitizeQuery "//**/*a*/") = ""
    ∧ sanitizeQuery (sanitizeQuery "//**/*a*/") ≠ sanitizeQuery "//**/*a*/" := by
  decide

/-- Claim C7 (amended): sanitization is idempotent on every input in which
the substring `/*` does not occur (in particular on every block-comment-free
query); in general removing a block comment can splice a new `/*...*/`
together, so a second pass can remove more text. -/
theorem claim_C7_amended (s : String)
    (h : hasSub ['/', '*'] s.data = false) :
    sanitizeQuery (sanitizeQuery s) = sanitizeQuery s :=
  sanitizeQuery_fixed_point s h

/-- Witness for C7 on a string with runs of whitespace and a line
comment. -/
theorem claim_C7_witness :
    sanitizeQuery (sanitizeQuery "  a  b # c\n d ") = sanitizeQuery "  a  b # c\n d " :=
  claim_C7_amended "  a  b # c\n d " (by decide)

/-- Claim C8: when the disabled-resolver list is non-empty and the
complexity and depth checks pass, `validateQueryConstraints` rejects with a
disabled-resolver error exactly when some disabled name occurs as a
case-insensitive substring of the sanitized query text — regardless of
whether the query was synthesized or hand-written, and even when the name
only occurs inside an unrelated identifier. -/
theorem claim_C8_disabled_substring (q : String) (cfg : MergedConfig)
    (hne : cfg.disabledResolvers ≠ [])
    (hc : calculateQueryComplexity (sanitizeQuery q) ≤ cfg.maxComplexity)
    (hd : calculateQueryDepth (sanitizeQuery q) ≤ (cfg.maxDepth : Int)) :
    isDisabledResolverError (validateQueryConstraints q cfg) = true ↔
      ∃ r ∈ cfg.disabledResolvers,
        hasSub (jsToLower r).data (jsToLower (sanitizeQuery q)).data = true :=
  isDisabledResolverError_validate q cfg hc hd

/-- Witness for C8: with `Country` disabled, a hand-written query whose text
contains `country` only inside the identifier `fetchCountryData` is
rejected. -/
theorem claim_C8_witness :
    isDisabledResolverError (validateQueryConstraints
      "query fetchCountryData" cfgCountry) = true :=
  (claim_C8_disabled_substring "query fetchCountryData" cfgCountry
    (by decide) (by decide) (by decide)).mpr ⟨"Country", by decide, by decide⟩

/-- Claim C9: for every introspection schema and disabled-resolver list, the
catalog rebuild produces exactly one tool per root Query field plus one per
root Mutation field, minus the fields whose name is a member (exact,
case-sensitive string equality) of the disabled list, each named
`query_<fieldName>` or `mutation_<fieldName>` according to its root type. -/
theorem claim_C9_catalog (schema : GqlSchema) (c : MergedConfig) :
    ((createMCPToolsFromSchema (some c) schema).map (fun t => t.name)
      = ((rootFields schema schema.queryType).filter
          (fun f => !(c.disabledResolvers.contains f.name))).map
            (fun f => "query_" ++ f.name)
        ++ ((rootFields schema schema.mutationType).filter
          (fun f => !(c.disabledResolvers.contains f.name))).map
            (fun f => "mutation_" ++ f.name))
    ∧ (createMCPToolsFromSchema (some c) schema).length
      = ((rootFields schema schema.queryType).length
          + (rootFields schema schema.mutationType).length)
        - ((rootFields schema schema.queryType).countP
            (fun f => c.disabledResolvers.contains f.name)
          + (rootFields schema schema.mutationType).countP
            (fun f => c.disabledResolvers.contains f.name)) := by
  constructor
  · unfold createMCPToolsFromSchema
    simp only [disabledContains]
    rw [List.map_append, List.map_map, List.map_map]
    congr 1
  · unfold createMCPToolsFromSchema
    simp only [disabledContains]
    rw [List.length_append, List.length_map, List.length_map]
    have h1 := length_filter_not_add_countP
      (rootFields schema schema.queryType)
      (fun f => c.disabledResolvers.contains f.name)
    have h2 := length_filter_not_add_countP
      (rootFields schema schema.mutationType)
      (fun f => c.disabledResolvers.contains f.name)
    omega

/-- Claim C10 (implicit): when a dynamic-tool invocation supplies an
argument whose name matches no declared argument of the resolver's
descriptor, the synthesized query still declares a variable for it with the
fallback GraphQL type String (the declaration `$key: String` appears in the
varPairs list and in the query text) and the value is forwarded in the
variables map, rather than the unknown argument being rejected. -/
theorem claim_C10_unknown_arg_fallback
    (tool : DynTool) (args : List (String × JsonVal)) (schema : Option GqlSchema)
    (k : String) (v : JsonVal)
    (hmem : (k, v) ∈ args)
    (hfind : tool.resolver.args.find? (fun a => a.name = k) = none) :
    ("$" ++ k ++ ": String") ∈ buildVarPairs tool.resolver.args args
    ∧ hasSub ("$" ++ k ++ ": String").data
        (buildResolverQuery tool args schema).data = true
    ∧ (k, v) ∈ buildVariables args :=
  ⟨buildVarPairs_unknown_mem tool.resolver.args args k v hmem hfind,
   buildResolverQuery_contains_unknown_decl tool args schema k v hmem hfind,
   hmem⟩

/-- Witness for C10: the `query_ping` tool (no declared arguments) invoked
with an unknown argument `foo`. -/
theorem claim_C10_witness :
    ("$" ++ "foo" ++ ": String")
        ∈ buildVarPairs toolPing.resolver.args [("foo", JsonVal.jStr "bar")]
    ∧ hasSub ("$" ++ "foo" ++ ": String").data
        (buildResolverQuery toolPing [("foo", JsonVal.jStr "bar")]
          (some schemaA)).data = true
    ∧ ("foo", JsonVal.jStr "bar") ∈ buildVariables [("foo", JsonVal.jStr "bar")] :=
  claim_C10_unknown_arg_fallback toolPing [("foo", JsonVal.jStr "bar")]
    (some schemaA) "foo" (JsonVal.jStr "bar") (by decide) (by decide)

end GraphqlMcp
